import Mathlib

/-!
Verification of the event-log / edit-map core of a CommonMark-like tokenizer.

The development embeds, as executable Lean definitions:
  * the `EditMap` batching mechanism (`src/util/edit_map.rs`): `shift_links`,
    `add` / `add_before` (`add_impl`), and `consume`;
  * the heading (atx) resolver (`src/construct/heading_atx.rs`);
  * the heading (atx) construct state machine and the title construct state
    machine, driven by a spec-modelled tokenizer engine (the engine itself,
    `Point`/`Event`/`Link`, and the space-or-tab helper constructs are not part
    of the corpus and are modelled from the specification);
  * the flow content-type dispatcher (`src/content/flow.rs`).

Rust panics (failed assertions, `unwrap`, and debug-mode arithmetic underflow)
are modelled by `Option`, with `none` standing for the panic.
-/

namespace MD

/-- Modelled from the spec: `Point` of the missing tokenizer module — an
immutable position holding a line number, a column number and a byte offset. -/
structure Point where
  line : Nat
  column : Nat
  offset : Nat
deriving DecidableEq, Repr

/-- Modelled from the spec: the kind of an event, `Enter` or `Exit`. -/
inductive EventType where
  | enter
  | exit
deriving DecidableEq, Repr

/-- Modelled from the spec: the closed token-kind enumeration (restricted to the
kinds used by the constructs of the corpus). -/
inductive Token where
  | HeadingAtx
  | HeadingAtxSequence
  | HeadingAtxText
  | Data
  | SpaceOrTab
  | LineEnding
  | BlankLineEnding
  | DefinitionTitle
  | DefinitionTitleMarker
  | DefinitionTitleString
deriving DecidableEq, Repr

/-- Modelled from the spec: the content types used for subtokenization links. -/
inductive ContentType where
  | flow
  | string
  | text
deriving DecidableEq, Repr

/-- Modelled from the spec: a `Link` stitches physically separate spans into one
logical run; `previous` / `next` are indices into the shared event log. -/
structure Link where
  previous : Option Nat
  next : Option Nat
  content_type : Option ContentType
deriving DecidableEq, Repr

/-- Modelled from the spec: an `Event` of the log — kind, token kind, position
and optional link (the missing tokenizer module owns this type in the corpus;
`edit_map.rs` and `heading_atx.rs` construct values of exactly this shape). -/
structure Event where
  event_type : EventType
  token_type : Token
  point : Point
  link : Option Link
deriving DecidableEq, Repr

instance : Inhabited Event :=
  ⟨⟨EventType.enter, Token.Data, ⟨1, 1, 0⟩, none⟩⟩

/-- One queued edit of the map: `(at, remove, add)`. -/
abbrev Edit := Nat × Nat × List Event

/-- Inner loop of the closure `map` of `shift_links`: walk the jump table while
the jump anchor is not past `before`, remembering the last cumulative
`(remove, add)` pair, and finally return `before + add - remove`.
(The Rust subtraction is on `usize`; the theorems below only use it where the
cumulative removals cannot exceed `before + add`, so `Nat` subtraction agrees;
on underflow the Rust debug build would panic.) -/
def jumpGo (before : Nat) : List (Nat × Nat × Nat) → Nat → Nat → Nat
  | [], remove, add => before + add - remove
  | j :: rest, remove, add =>
    if j.1 > before then before + add - remove
    else jumpGo before rest j.2.1 j.2.2

/-- The closure `map` of `shift_links` applied to one index. -/
def jumpMap (jumps : List (Nat × Nat × Nat)) (before : Nat) : Nat :=
  jumpGo before jumps 0 0

/-- Rewrite both link indices of one event through `jumpMap`. -/
def shiftEvent (jumps : List (Nat × Nat × Nat)) (e : Event) : Event :=
  { e with
    link := e.link.map fun l =>
      { l with
        previous := l.previous.map (jumpMap jumps),
        next := l.next.map (jumpMap jumps) } }

/-- Embedding of `shift_links`: shift the `previous` / `next` links of every
event according to `jumps` (the while-loop over `events` is a map). -/
def shift_links (events : List Event) (jumps : List (Nat × Nat × Nat)) :
    List Event :=
  events.map (shiftEvent jumps)

/-- Embedding of `EditMap`: whether the map was consumed, and the record of
changes. -/
structure EditMap where
  consumed : Bool
  map : List Edit
deriving DecidableEq, Repr

/-- Embedding of `EditMap::new`. -/
def EditMap.new : EditMap :=
  ⟨false, []⟩

/-- The while-loop of `add_impl`: find an existing entry anchored at `at_`; on a
hit accumulate the removal count and append (or, with `before := true`,
prepend) the additions; otherwise push a fresh entry at the end. -/
def insertEdit (at_ remove : Nat) (add : List Event) (before : Bool) :
    List Edit → List Edit
  | [] => [(at_, remove, add)]
  | e :: rest =>
    if e.1 = at_ then
      (if before then (at_, e.2.1 + remove, add ++ e.2.2)
       else (at_, e.2.1 + remove, e.2.2 ++ add)) :: rest
    else e :: insertEdit at_ remove add before rest

/-- Embedding of `add_impl`. The leading assertion (`cannot add after
consuming`) is modelled by returning `none`; a zero-remove / zero-add call
returns the map unchanged before the search. -/
def add_impl (edit_map : EditMap) (at_ remove : Nat) (add : List Event)
    (before : Bool) : Option EditMap :=
  if edit_map.consumed then none
  else if remove = 0 ∧ add = [] then some edit_map
  else some ⟨false, insertEdit at_ remove add before edit_map.map⟩

/-- Embedding of `EditMap::add`. -/
def EditMap.add (m : EditMap) (index remove : Nat) (add : List Event) :
    Option EditMap :=
  add_impl m index remove add false

/-- Embedding of `EditMap::add_before`. -/
def EditMap.add_before (m : EditMap) (index remove : Nat) (add : List Event) :
    Option EditMap :=
  add_impl m index remove add true

/-- The `sort_unstable_by` call of `consume`, sorting edits by anchor.
(`add_impl` keeps anchors distinct, so any sort by anchor is deterministic;
insertion sort is used here.) -/
def sortEdits (l : List Edit) : List Edit :=
  List.insertionSort (fun a b => a.1 ≤ b.1) l

/-- The jump-table construction of `consume`: running cumulative sums of
removals and additions, tagged with each anchor. -/
def buildJumpsGo : List Edit → Nat → Nat → List (Nat × Nat × Nat)
  | [], _, _ => []
  | (at_, remove, add) :: rest, removeAcc, addAcc =>
    (at_, removeAcc + remove, addAcc + add.length) ::
      buildJumpsGo rest (removeAcc + remove) (addAcc + add.length)

/-- The jump table of `consume` for a sorted map. -/
def buildJumps (l : List Edit) : List (Nat × Nat × Nat) :=
  buildJumpsGo l 0 0

/-- The reverse walk of `consume`, processing the sorted map from the highest
anchor down (the argument list is the reversed sorted map).  Each step splits
off the kept tail past `at + remove` (shifting its links), stacks the tail and
the edit's additions, and truncates to `at`.  A split point past the current
length makes `Vec::split_off` panic in Rust, modelled by `none`. -/
def consumeLoop (jumps : List (Nat × Nat × Nat)) :
    List Edit → List Event → List (List Event) →
    Option (List Event × List (List Event))
  | [], events, vecs => some (events, vecs)
  | (at_, remove, add) :: rest, events, vecs =>
    if at_ + remove ≤ events.length then
      consumeLoop jumps rest (events.take at_)
        (add :: shift_links (events.drop (at_ + remove)) jumps :: vecs)
    else none

/-- Embedding of `EditMap::consume`: sort the map, build the jump table, walk
the edits from the highest anchor down, shift the untouched prefix, and
reassemble by popping the stacked slices.  The failed assertion on a second
consume is modelled by `none` (the preceding in-place sort of an
already-consumed map is observationally a no-op, since a consumed map is
already sorted).  The returned `EditMap` reflects the post-consume state:
`consumed` set, and every queued addition vector drained by `split_off(0)`. -/
def EditMap.consume (em : EditMap) (events : List Event) :
    Option (EditMap × List Event) :=
  if em.consumed then none
  else
    let sorted := sortEdits em.map
    let jumps := buildJumps sorted
    match consumeLoop jumps sorted.reverse events [] with
    | none => none
    | some (pre, vecs) =>
      some (⟨true, sorted.map (fun e => (e.1, e.2.1, ([] : List Event)))⟩,
        (shift_links pre jumps :: vecs).flatten)

/-! ### Claim C3: merging edits queued at the same anchor -/

theorem insertEdit_found (p q : List Edit) (at_ r1 r2 : Nat)
    (a1 a2 : List Event) (before : Bool) (hp : ∀ e ∈ p, e.1 ≠ at_) :
    insertEdit at_ r2 a2 before (p ++ (at_, r1, a1) :: q) =
      p ++ (if before then (at_, r1 + r2, a2 ++ a1)
            else (at_, r1 + r2, a1 ++ a2)) :: q := by
  induction p with
  | nil => simp [insertEdit]
  | cons e p ih =>
    have he : e.1 ≠ at_ := hp e (List.mem_cons_self e p)
    simp only [List.cons_append, insertEdit, if_neg he, List.append_eq]
    rw [ih fun x hx => hp x (List.mem_cons_of_mem e hx)]

/-- Claim C3: for an `EditMap` already holding a queued edit `(at, r1, a1)`,
`add at r2 a2` leaves a single entry anchored at `at` with removal count
`r1 + r2` and insertions `a1 ++ a2`, while `add_before at r2 a2` leaves
removal count `r1 + r2` with insertions `a2 ++ a1`; the rest of the map is
untouched and no second entry with the same anchor is created. -/
theorem add_merges_same_anchor (p q : List Edit) (at_ r1 r2 : Nat)
    (a1 a2 : List Event) (hp : ∀ e ∈ p, e.1 ≠ at_) :
    (EditMap.mk false (p ++ (at_, r1, a1) :: q)).add at_ r2 a2 =
      some ⟨false, p ++ (at_, r1 + r2, a1 ++ a2) :: q⟩ ∧
    (EditMap.mk false (p ++ (at_, r1, a1) :: q)).add_before at_ r2 a2 =
      some ⟨false, p ++ (at_, r1 + r2, a2 ++ a1) :: q⟩ := by
  constructor
  · unfold EditMap.add add_impl
    by_cases h0 : r2 = 0 ∧ a2 = []
    · simp [h0.1, h0.2]
    · simp only [if_neg h0, insertEdit_found p q at_ r1 r2 a1 a2 false hp]
      simp
  · unfold EditMap.add_before add_impl
    by_cases h0 : r2 = 0 ∧ a2 = []
    · simp [h0.1, h0.2]
    · simp only [if_neg h0, insertEdit_found p q at_ r1 r2 a1 a2 true hp]
      simp

/-- Witness for C3 at a concrete map. -/
theorem add_merges_same_anchor_witness :
    (EditMap.mk false [(0, 1, []), (2, 1, [default])]).add 2 3 [] =
      some ⟨false, [(0, 1, []), (2, 4, [default])]⟩ ∧
    (EditMap.mk false [(0, 1, []), (2, 1, [default])]).add_before 2 3 [] =
      some ⟨false, [(0, 1, []), (2, 4, [default])]⟩ := by
  have h := add_merges_same_anchor [(0, 1, [])] [] 2 1 3 [default] []
    (by intro e he; simp at he; simp [he])
  simpa using h

/-! ### Claim C5: zero-remove / zero-add edits are invisible -/

/-- Claim C5: calling `add` (or `add_before`) with removal count `0` and an
empty insertion list returns the map unchanged — no entry is created, so any
later `consume` produces the identical log. -/
theorem add_noop_invisible (em : EditMap) (at_ : Nat)
    (hc : em.consumed = false) :
    em.add at_ 0 [] = some em ∧ em.add_before at_ 0 [] = some em := by
  constructor <;> simp [EditMap.add, EditMap.add_before, add_impl, hc]

/-- Witness for C5. -/
theorem add_noop_invisible_witness :
    EditMap.new.add 7 0 [] = some EditMap.new ∧
    EditMap.new.add_before 7 0 [] = some EditMap.new :=
  add_noop_invisible EditMap.new 7 rfl

/-! ### Claim C6: a consumed map rejects all further operations -/

/-- Claim C6: once `consume` has run (the `consumed` flag is set), a second
`consume`, and likewise any `add` or `add_before`, fails the leading assertion
(modelled by `none`): no event log is produced and nothing is modified. -/
theorem consumed_map_rejects_all (em : EditMap) (hc : em.consumed = true)
    (events : List Event) (at_ remove : Nat) (add : List Event) :
    em.consume events = none ∧ em.add at_ remove add = none ∧
      em.add_before at_ remove add = none := by
  refine ⟨?_, ?_, ?_⟩ <;>
    simp [EditMap.consume, EditMap.add, EditMap.add_before, add_impl, hc]

/-! ### Functional characterization of `consume` -/

/-- Functional form of the reverse walk plus final reassembly of `consume`:
processing the reversed sorted map, each edit splits the log at its anchor,
keeps the shifted tail past the removed region, and splices in its additions. -/
def applyRev (jumps : List (Nat × Nat × Nat)) :
    List Edit → List Event → List Event
  | [], events => shift_links events jumps
  | (at_, remove, add) :: rest, events =>
    applyRev jumps rest (events.take at_) ++ add ++
      shift_links (events.drop (at_ + remove)) jumps

/-- Well-formedness of a reversed (descending) edit list with respect to a log
length: each removed region ends within what is left of the log once all later
(higher-anchored) edits have split it off. -/
def chainRevB : List Edit → Nat → Bool
  | [], _ => true
  | (at_, remove, _) :: rest, n => decide (at_ + remove ≤ n) && chainRevB rest at_

/-- An index survives a batch of edits when it lies in no removed region. -/
def survivesB (s : List Edit) (i : Nat) : Bool :=
  s.all fun e => decide (i < e.1) || decide (e.1 + e.2.1 ≤ i)

/-- Cumulative number of removed events over the edits anchored at
an index less than or equal to `i`. -/
def removeAccF (s : List Edit) (i : Nat) : Nat :=
  ((s.filter fun e => decide (e.1 ≤ i)).map fun e => e.2.1).sum

/-- Cumulative number of inserted events over the edits anchored at
an index less than or equal to `i`. -/
def addAccF (s : List Edit) (i : Nat) : Nat :=
  ((s.filter fun e => decide (e.1 ≤ i)).map fun e => e.2.2.length).sum

/-- Total number of removed events of a batch. -/
def remTotal (s : List Edit) : Nat :=
  (s.map fun e => e.2.1).sum

/-- Total number of inserted events of a batch. -/
def addTotal (s : List Edit) : Nat :=
  (s.map fun e => e.2.2.length).sum

/-- Removed events of the edits anchored strictly past `i`. -/
def remGtSum (s : List Edit) (i : Nat) : Nat :=
  ((s.filter fun e => decide (i < e.1)).map fun e => e.2.1).sum

theorem remTotal_cons {a r : Nat} {v : List Event} (s : List Edit) :
    remTotal ((a, r, v) :: s) = r + remTotal s := by
  simp [remTotal]

theorem addTotal_cons {a r : Nat} {v : List Event} (s : List Edit) :
    addTotal ((a, r, v) :: s) = v.length + addTotal s := by
  simp [addTotal]

theorem removeAccF_cons_le {a r i : Nat} {v : List Event} (s : List Edit)
    (h : a ≤ i) : removeAccF ((a, r, v) :: s) i = r + removeAccF s i := by
  simp [removeAccF, List.filter_cons, h]

theorem removeAccF_cons_gt {a r i : Nat} {v : List Event} (s : List Edit)
    (h : ¬ a ≤ i) : removeAccF ((a, r, v) :: s) i = removeAccF s i := by
  simp [removeAccF, List.filter_cons, h]

theorem addAccF_cons_le {a r i : Nat} {v : List Event} (s : List Edit)
    (h : a ≤ i) : addAccF ((a, r, v) :: s) i = v.length + addAccF s i := by
  simp [addAccF, List.filter_cons, h]

theorem addAccF_cons_gt {a r i : Nat} {v : List Event} (s : List Edit)
    (h : ¬ a ≤ i) : addAccF ((a, r, v) :: s) i = addAccF s i := by
  simp [addAccF, List.filter_cons, h]

theorem remGtSum_cons_lt {a r i : Nat} {v : List Event} (s : List Edit)
    (h : i < a) : remGtSum ((a, r, v) :: s) i = r + remGtSum s i := by
  simp [remGtSum, List.filter_cons, h]

theorem remGtSum_cons_ge {a r i : Nat} {v : List Event} (s : List Edit)
    (h : ¬ i < a) : remGtSum ((a, r, v) :: s) i = remGtSum s i := by
  simp [remGtSum, List.filter_cons, h]

theorem chainRevB_anchor_le {s : List Edit} {n : Nat}
    (h : chainRevB s n = true) : ∀ e ∈ s, e.1 + e.2.1 ≤ n := by
  induction s generalizing n with
  | nil => intro e he; cases he
  | cons x rest ih =>
    obtain ⟨at_, remove, add⟩ := x
    simp only [chainRevB, Bool.and_eq_true, decide_eq_true_eq] at h
    intro e he
    rcases List.mem_cons.mp he with rfl | he'
    · exact h.1
    · have := ih h.2 e he'
      omega

theorem remTotal_le_of_chain {s : List Edit} {n : Nat}
    (h : chainRevB s n = true) : remTotal s ≤ n := by
  induction s generalizing n with
  | nil => simp [remTotal]
  | cons x rest ih =>
    obtain ⟨at_, remove, add⟩ := x
    simp only [chainRevB, Bool.and_eq_true, decide_eq_true_eq] at h
    have := ih h.2
    rw [remTotal_cons]
    omega

theorem sum_filter_le (s : List Edit) (p : Edit → Bool) (f : Edit → Nat) :
    ((s.filter p).map f).sum ≤ (s.map f).sum := by
  induction s with
  | nil => simp
  | cons x rest ih =>
    by_cases h : p x <;> simp [List.filter_cons, h] <;> omega

theorem remTotal_split (s : List Edit) (i : Nat) :
    remTotal s = removeAccF s i + remGtSum s i := by
  induction s with
  | nil => simp [remTotal, removeAccF, remGtSum]
  | cons x rest ih =>
    by_cases h : x.1 ≤ i
    · rw [remTotal_cons, removeAccF_cons_le rest h,
        remGtSum_cons_ge rest (by omega)]
      omega
    · rw [remTotal_cons, removeAccF_cons_gt rest h,
        remGtSum_cons_lt rest (by omega)]
      omega

theorem remGtSum_zero {s : List Edit} {i : Nat} (h : ∀ e ∈ s, e.1 ≤ i) :
    remGtSum s i = 0 := by
  unfold remGtSum
  rw [List.filter_eq_nil_iff.mpr (by intro e he; simp [h e he])]
  simp

theorem remGtSum_le {s : List Edit} {m i : Nat} (hch : chainRevB s m = true)
    (him : i < m) : i + 1 + remGtSum s i ≤ m := by
  induction s generalizing m with
  | nil => simp [remGtSum]; omega
  | cons x rest ih =>
    obtain ⟨at_, remove, add⟩ := x
    simp only [chainRevB, Bool.and_eq_true, decide_eq_true_eq] at hch
    by_cases h : i < at_
    · have hrest := ih hch.2 h
      rw [remGtSum_cons_lt rest h]
      omega
    · have hanch : ∀ e ∈ rest, e.1 ≤ i := by
        intro e he
        have := chainRevB_anchor_le hch.2 e he
        omega
      rw [remGtSum_cons_ge rest h, remGtSum_zero hanch]
      omega

theorem removeAccF_le_of_surv {s : List Edit} {n i : Nat}
    (hch : chainRevB s n = true) (hs : survivesB s i = true) :
    removeAccF s i ≤ i := by
  induction s generalizing n with
  | nil => simp [removeAccF]
  | cons x rest ih =>
    obtain ⟨at_, remove, add⟩ := x
    simp only [chainRevB, Bool.and_eq_true, decide_eq_true_eq] at hch
    simp only [survivesB, List.all_cons, Bool.and_eq_true, Bool.or_eq_true,
      decide_eq_true_eq] at hs
    have hsrest : survivesB rest i = true := by
      simp only [survivesB]; exact hs.2
    by_cases h : at_ ≤ i
    · have hreg : at_ + remove ≤ i := by rcases hs.1 with h' | h' <;> omega
      have h1 : removeAccF rest i ≤ remTotal rest := by
        unfold removeAccF remTotal; exact sum_filter_le rest _ _
      have h2 : remTotal rest ≤ at_ := remTotal_le_of_chain hch.2
      rw [removeAccF_cons_le rest h]
      omega
    · have := ih hch.2 hsrest
      rw [removeAccF_cons_gt rest h]
      exact this

theorem accF_eq_total {s : List Edit} {i : Nat} (h : ∀ e ∈ s, e.1 ≤ i) :
    removeAccF s i = remTotal s ∧ addAccF s i = addTotal s := by
  have hfil : s.filter (fun e => decide (e.1 ≤ i)) = s :=
    List.filter_eq_self.mpr fun e he => by simp [h e he]
  constructor <;> simp [removeAccF, addAccF, remTotal, addTotal, hfil]

theorem applyRev_length (jumps : List (Nat × Nat × Nat)) {s : List Edit}
    {events : List Event} (h : chainRevB s events.length = true) :
    (applyRev jumps s events).length + remTotal s =
      events.length + addTotal s := by
  induction s generalizing events with
  | nil => simp [applyRev, shift_links, remTotal, addTotal]
  | cons x rest ih =>
    obtain ⟨at_, remove, add⟩ := x
    simp only [chainRevB, Bool.and_eq_true, decide_eq_true_eq] at h
    have hat : at_ ≤ events.length := by omega
    have hlen : (events.take at_).length = at_ := by
      rw [List.length_take]; omega
    have hih := ih
      (show chainRevB rest (events.take at_).length = true by
        rw [hlen]; exact h.2)
    rw [hlen] at hih
    rw [remTotal_cons, addTotal_cons]
    simp only [applyRev, List.length_append, shift_links, List.length_map,
      List.length_drop]
    omega

/-- Positional lemma for `applyRev`: a surviving pre-edit index `i` lands at
`i` plus the cumulative insertions minus the cumulative removals over the
edits anchored at an index not above `i`, carrying the event shifted through
the jump table. -/
theorem applyRev_get (jumps : List (Nat × Nat × Nat)) {s : List Edit}
    {events : List Event} {i : Nat} (hch : chainRevB s events.length = true)
    (hs : survivesB s i = true) :
    (applyRev jumps s events)[i + addAccF s i - removeAccF s i]? =
      (events[i]?).map (shiftEvent jumps) := by
  induction s generalizing events with
  | nil =>
    simp [applyRev, shift_links, addAccF, removeAccF]
  | cons x rest ih =>
    obtain ⟨at_, remove, add⟩ := x
    simp only [chainRevB, Bool.and_eq_true, decide_eq_true_eq] at hch
    simp only [survivesB, List.all_cons, Bool.and_eq_true, Bool.or_eq_true,
      decide_eq_true_eq] at hs
    have hsrest : survivesB rest i = true := by
      simp only [survivesB]; exact hs.2
    have hat : at_ ≤ events.length := by omega
    have hlen : (events.take at_).length = at_ := by
      rw [List.length_take]; omega
    have hchrest : chainRevB rest (events.take at_).length = true := by
      rw [hlen]; exact hch.2
    have hLlen := applyRev_length jumps hchrest
    rw [hlen] at hLlen
    rcases hs.1 with hlt | hge
    · -- the surviving index lies before the anchor of the last edit
      have hacc :
          removeAccF ((at_, remove, add) :: rest) i = removeAccF rest i ∧
          addAccF ((at_, remove, add) :: rest) i = addAccF rest i :=
        ⟨removeAccF_cons_gt rest (by omega), addAccF_cons_gt rest (by omega)⟩
      have hA : addAccF rest i ≤ addTotal rest := by
        unfold addAccF addTotal; exact sum_filter_le rest _ _
      have hsplit := remTotal_split rest i
      have hG : i + 1 + remGtSum rest i ≤ at_ := remGtSum_le hch.2 hlt
      have hR : removeAccF rest i ≤ i := removeAccF_le_of_surv hch.2 hsrest
      have hpos : i + addAccF rest i - removeAccF rest i <
          (applyRev jumps rest (events.take at_)).length := by omega
      rw [hacc.1, hacc.2]
      simp only [applyRev]
      rw [List.getElem?_append_left
          (by rw [List.length_append]; omega),
        List.getElem?_append_left hpos,
        ih hchrest hsrest,
        List.getElem?_take_of_lt hlt]
    · -- the surviving index lies past the removed region of the last edit
      have hanch : ∀ e ∈ (at_, remove, add) :: rest, e.1 ≤ i := by
        intro e he
        rcases List.mem_cons.mp he with rfl | he'
        · omega
        · have := chainRevB_anchor_le hch.2 e he'
          omega
      have htot := accF_eq_total hanch
      have hRT : remTotal rest ≤ at_ := remTotal_le_of_chain hch.2
      have hTot : remTotal ((at_, remove, add) :: rest) =
          remove + remTotal rest := remTotal_cons _
      have hTad : addTotal ((at_, remove, add) :: rest) =
          add.length + addTotal rest := addTotal_cons _
      rw [htot.1, htot.2]
      simp only [applyRev]
      have hge2 : (applyRev jumps rest (events.take at_) ++ add).length ≤
          i + addTotal ((at_, remove, add) :: rest) -
            remTotal ((at_, remove, add) :: rest) := by
        rw [List.length_append]; omega
      rw [List.getElem?_append_right hge2]
      have hidx : i + addTotal ((at_, remove, add) :: rest) -
          remTotal ((at_, remove, add) :: rest) -
          (applyRev jumps rest (events.take at_) ++ add).length =
          i - (at_ + remove) := by
        rw [List.length_append]; omega
      rw [hidx]
      simp only [shift_links, List.getElem?_map, List.getElem?_drop]
      rw [show at_ + remove + (i - (at_ + remove)) = i by omega]

/-- Loop invariant of `consumeLoop`: it succeeds on a well-formed reversed
batch and, once the shifted prefix and the popped slices are reassembled,
computes exactly `applyRev`. -/
theorem consumeLoop_spec (jumps : List (Nat × Nat × Nat)) :
    ∀ (sRev : List Edit) (events : List Event) (vecs : List (List Event)),
    chainRevB sRev events.length = true →
    ∃ pre L, consumeLoop jumps sRev events vecs = some (pre, L ++ vecs) ∧
      shift_links pre jumps ++ L.flatten = applyRev jumps sRev events := by
  intro sRev
  induction sRev with
  | nil =>
    intro events vecs _
    exact ⟨events, [], by simp [consumeLoop], by simp [applyRev]⟩
  | cons x rest ih =>
    intro events vecs hch
    obtain ⟨at_, remove, add⟩ := x
    simp only [chainRevB, Bool.and_eq_true, decide_eq_true_eq] at hch
    have hat : at_ ≤ events.length := by omega
    have hlen : (events.take at_).length = at_ := by
      rw [List.length_take]; omega
    obtain ⟨pre, L, hl, he⟩ := ih (events.take at_)
      (add :: shift_links (events.drop (at_ + remove)) jumps :: vecs)
      (by rw [hlen]; exact hch.2)
    refine ⟨pre, L ++ [add, shift_links (events.drop (at_ + remove)) jumps],
      ?_, ?_⟩
    · simp only [consumeLoop, if_pos hch.1, hl]
      simp
    · simp only [applyRev, ← he, List.flatten_append]
      simp [List.append_assoc]

/-- Characterization of `EditMap::consume` on a well-formed batch as the
functional `applyRev` over the sorted map. -/
theorem consume_eq_applyRev {em : EditMap} {events : List Event}
    (hc : em.consumed = false)
    (hch : chainRevB (sortEdits em.map).reverse events.length = true) :
    em.consume events =
      some (⟨true, (sortEdits em.map).map fun e => (e.1, e.2.1, [])⟩,
        applyRev (buildJumps (sortEdits em.map))
          (sortEdits em.map).reverse events) := by
  obtain ⟨pre, L, hl, he⟩ := consumeLoop_spec (buildJumps (sortEdits em.map))
    (sortEdits em.map).reverse events [] hch
  simp only [EditMap.consume, hc, Bool.false_eq_true, if_false]
  rw [hl]
  simp only [List.append_nil, List.flatten_cons]
  rw [show shift_links pre (buildJumps (sortEdits em.map)) ++ L.flatten =
      applyRev (buildJumps (sortEdits em.map))
        (sortEdits em.map).reverse events from he]

/-! ### The jump table computes the cumulative shift formula -/

theorem accF_zero {s : List Edit} {i : Nat} (h : ∀ e ∈ s, i < e.1) :
    removeAccF s i = 0 ∧ addAccF s i = 0 := by
  have hfil : s.filter (fun e => decide (e.1 ≤ i)) = [] :=
    List.filter_eq_nil_iff.mpr fun e he => by
      have := h e he; simp; omega
  constructor <;> simp [removeAccF, addAccF, hfil]

theorem jumpGo_spec {s : List Edit}
    (hs : List.Pairwise (fun a b : Edit => a.1 ≤ b.1) s) (i : Nat) :
    ∀ R A : Nat, jumpGo i (buildJumpsGo s R A) R A =
      i + (A + addAccF s i) - (R + removeAccF s i) := by
  induction s with
  | nil => intro R A; simp [buildJumpsGo, jumpGo, addAccF, removeAccF]
  | cons x rest ih =>
    intro R A
    obtain ⟨at_, remove, add⟩ := x
    rcases List.pairwise_cons.mp hs with ⟨hhead, htail⟩
    by_cases hat : at_ ≤ i
    · simp only [buildJumpsGo, jumpGo, if_neg (by omega : ¬ at_ > i)]
      rw [ih htail]
      rw [removeAccF_cons_le rest hat, addAccF_cons_le rest hat]
      omega
    · simp only [buildJumpsGo, jumpGo, if_pos (by omega : at_ > i)]
      have hrest : ∀ e ∈ rest, i < e.1 := by
        intro e he
        have := hhead e he
        omega
      have h1 := accF_zero (s := (at_, remove, add) :: rest) (i := i)
        (by
          intro e he
          rcases List.mem_cons.mp he with rfl | he'
          · omega
          · exact hrest e he')
      rw [h1.1, h1.2]
      omega

theorem sortEdits_perm (l : List Edit) : (sortEdits l).Perm l :=
  List.perm_insertionSort _ l

theorem sortEdits_sorted (l : List Edit) :
    List.Sorted (fun a b : Edit => a.1 ≤ b.1) (sortEdits l) := by
  haveI : IsTotal Edit (fun a b => a.1 ≤ b.1) := ⟨fun a b => Nat.le_total a.1 b.1⟩
  haveI : IsTrans Edit (fun a b => a.1 ≤ b.1) :=
    ⟨fun a b c h1 h2 => le_trans h1 h2⟩
  exact List.sorted_insertionSort _ l

theorem jumpMap_formula (l : List Edit) (i : Nat) :
    jumpMap (buildJumps (sortEdits l)) i =
      i + addAccF (sortEdits l) i - removeAccF (sortEdits l) i := by
  have h := jumpGo_spec (sortEdits_sorted l) i 0 0
  simpa [jumpMap, buildJumps] using h

theorem accF_perm {l l' : List Edit} (h : l.Perm l') (i : Nat) :
    removeAccF l i = removeAccF l' i ∧ addAccF l i = addAccF l' i :=
  ⟨((h.filter _).map _).sum_eq, ((h.filter _).map _).sum_eq⟩

theorem survivesB_perm {l l' : List Edit} (h : l.Perm l') {i : Nat}
    (hs : survivesB l i = true) : survivesB l' i = true := by
  simp only [survivesB, List.all_eq_true] at hs ⊢
  intro e he
  exact hs e (h.mem_iff.mpr he)

/-! ### Claim C1: consume relocates surviving events by the cumulative shift -/

/-- Claim C1: on a well-formed batch, `consume` succeeds and every surviving
pre-edit index `i` (one lying in no removed region) carries its event — with
both link indices rewritten through the jump table — to position
`i + inserted - removed`, cumulated over the edits anchored at an index at
most `i`; moreover the link-rewriting function `jumpMap` is exactly that
cumulative-shift mapping at every index, so a link to a surviving index `j`
is rewritten to the post-edit position of the same logical event. -/
theorem consume_relinks_surviving (em : EditMap) (events : List Event)
    (i : Nat) (hc : em.consumed = false)
    (hch : chainRevB (sortEdits em.map).reverse events.length = true)
    (hi : i < events.length) (hs : survivesB em.map i = true) :
    ∃ em2 out, em.consume events = some (em2, out) ∧
      out[i + addAccF em.map i - removeAccF em.map i]? =
        (events[i]?).map (shiftEvent (buildJumps (sortEdits em.map))) ∧
      ∀ j : Nat, jumpMap (buildJumps (sortEdits em.map)) j =
        j + addAccF em.map j - removeAccF em.map j := by
  have hperm : ((sortEdits em.map).reverse).Perm em.map :=
    (List.reverse_perm _).trans (sortEdits_perm em.map)
  have hsrev : survivesB (sortEdits em.map).reverse i = true :=
    survivesB_perm hperm.symm hs
  have haccr := accF_perm hperm i
  refine ⟨_, _, consume_eq_applyRev hc hch, ?_, ?_⟩
  · rw [← haccr.1, ← haccr.2]
    exact applyRev_get _ hch hsrev
  · intro j
    rw [jumpMap_formula]
    have h1 := accF_perm (sortEdits_perm em.map) j
    rw [h1.1, h1.2]

/-- Witness for C1: a three-event log with one removal edit in front of a
linked pair; the surviving events shift down by one and the link follows. -/
theorem consume_relinks_surviving_witness :
    ∃ em2 out,
      (EditMap.mk false [(0, 1, [])]).consume
        [default,
         ⟨EventType.enter, Token.Data, ⟨1, 2, 1⟩, some ⟨none, none, none⟩⟩,
         ⟨EventType.enter, Token.Data, ⟨1, 3, 2⟩, some ⟨some 1, none, none⟩⟩] =
        some (em2, out) ∧
      out[2 + addAccF [(0, 1, [])] 2 - removeAccF [(0, 1, [])] 2]? =
        ([default,
          ⟨EventType.enter, Token.Data, ⟨1, 2, 1⟩, some ⟨none, none, none⟩⟩,
          ⟨EventType.enter, Token.Data, ⟨1, 3, 2⟩,
            some ⟨some 1, none, none⟩⟩][2]?).map
          (shiftEvent (buildJumps (sortEdits [(0, 1, [])]))) ∧
      ∀ j : Nat, jumpMap (buildJumps (sortEdits [(0, 1, [])])) j =
        j + addAccF [(0, 1, [])] j - removeAccF [(0, 1, [])] j :=
  consume_relinks_surviving ⟨false, [(0, 1, [])]⟩ _ 2 rfl (by decide)
    (by decide) (by decide)

/-! ### Claim C4: order of registration of non-overlapping edits -/

/-- Queue a batch of edits through `EditMap::add` in list order, starting from
a fresh map. -/
def addAll (edits : List Edit) : Option EditMap :=
  edits.foldlM (fun m e => m.add e.1 e.2.1 e.2.2) EditMap.new

/-- Disjointness of the affected regions `[at, at + remove)` of two edits, as
worded by the claim (an empty region is disjoint from everything). -/
def regionsDisjointB (a b : Edit) : Bool :=
  decide (a.2.1 = 0) || decide (b.2.1 = 0) ||
    decide (a.1 + a.2.1 ≤ b.1) || decide (b.1 + b.2.1 ≤ a.1)

theorem insertEdit_fresh {l : List Edit} {at_ : Nat}
    (h : ∀ x ∈ l, x.1 ≠ at_) (remove : Nat) (add : List Event) (b : Bool) :
    insertEdit at_ remove add b l = l ++ [(at_, remove, add)] := by
  induction l with
  | nil => simp [insertEdit]
  | cons x rest ih =>
    have hx : x.1 ≠ at_ := h x (List.mem_cons_self x rest)
    simp only [insertEdit, if_neg hx, List.cons_append, List.cons.injEq,
      true_and]
    exact ih fun y hy => h y (List.mem_cons_of_mem x hy)

/-- The filter kept by queuing a batch: the edits that are not no-ops. -/
def nonNoop (e : Edit) : Bool :=
  !(decide (e.2.1 = 0 ∧ e.2.2 = []))

/-- A fold of `add` over edits with pairwise-distinct anchors, all fresh for
the accumulated map, appends exactly the non-no-op edits in order. -/
theorem addAll_go {edits : List Edit} :
    ∀ {m : List Edit},
    (∀ e ∈ edits, ∀ x ∈ m, x.1 ≠ e.1) →
    List.Pairwise (fun a b : Edit => a.1 ≠ b.1) edits →
    edits.foldlM (fun m e => m.add e.1 e.2.1 e.2.2) (EditMap.mk false m) =
      some ⟨false, m ++ edits.filter nonNoop⟩ := by
  induction edits with
  | nil => intro m _ _; simp
  | cons e rest ih =>
    intro m hfresh hdist
    rcases List.pairwise_cons.mp hdist with ⟨hhead, htail⟩
    by_cases hnoop : e.2.1 = 0 ∧ e.2.2 = []
    · have hstep : (EditMap.mk false m).add e.1 e.2.1 e.2.2 =
          some (EditMap.mk false m) := by
        simp [EditMap.add, add_impl, hnoop.1, hnoop.2]
      simp only [List.foldlM_cons, hstep, Option.bind_eq_bind,
        Option.some_bind]
      rw [ih (fun x hx => hfresh x (List.mem_cons_of_mem e hx)) htail]
      have hfil : (e :: rest).filter nonNoop = rest.filter nonNoop := by
        rw [List.filter_cons, if_neg (by simp [nonNoop, hnoop])]
      rw [hfil]
    · have he : (e.1, e.2.1, e.2.2) = e := rfl
      have hstep : (EditMap.mk false m).add e.1 e.2.1 e.2.2 =
          some (EditMap.mk false (m ++ [e])) := by
        simp only [EditMap.add, add_impl, if_neg hnoop]
        rw [insertEdit_fresh (fun x hx =>
          hfresh e (List.mem_cons_self e rest) x hx), he]
        simp
      simp only [List.foldlM_cons, hstep, Option.bind_eq_bind,
        Option.some_bind]
      rw [ih ?_ htail]
      · have hfil : (e :: rest).filter nonNoop = e :: rest.filter nonNoop := by
          rw [List.filter_cons, if_pos (by simp [nonNoop, hnoop])]
        rw [hfil]
        simp
      · intro x hx y hy
        rcases List.mem_append.mp hy with hy' | hy'
        · exact hfresh x (List.mem_cons_of_mem e hx) y hy'
        · rcases List.mem_singleton.mp hy' with rfl
          exact hhead x hx

/-- Queuing a batch with pairwise-distinct anchors records exactly its
non-no-op edits, in registration order. -/
theorem addAll_eq {edits : List Edit}
    (hdist : List.Pairwise (fun a b : Edit => a.1 ≠ b.1) edits) :
    addAll edits = some ⟨false, edits.filter nonNoop⟩ := by
  have h := addAll_go (m := [])
    (fun e _ x hx => absurd hx (List.not_mem_nil x)) hdist
  simpa [addAll, EditMap.new] using h

/-- Sorting two permuted edit lists with pairwise-distinct anchors yields the
same sorted list. -/
theorem sortEdits_eq_of_perm {l l' : List Edit} (hp : l.Perm l')
    (hdist : List.Pairwise (fun a b : Edit => a.1 ≠ b.1) l) :
    sortEdits l = sortEdits l' := by
  haveI : IsAntisymm Edit (fun a b => a.1 < b.1) :=
    ⟨fun a b h1 h2 => absurd h2 (by omega)⟩
  have hsym : ∀ {x y : Edit}, x.1 ≠ y.1 → y.1 ≠ x.1 := fun h => Ne.symm h
  have hdl : List.Pairwise (fun a b : Edit => a.1 ≠ b.1) (sortEdits l) :=
    ((sortEdits_perm l).pairwise_iff hsym).mpr hdist
  have hdl' : List.Pairwise (fun a b : Edit => a.1 ≠ b.1) (sortEdits l') :=
    ((sortEdits_perm l').pairwise_iff hsym).mpr
      ((hp.pairwise_iff hsym).mp hdist)
  have hlt : List.Pairwise (fun a b : Edit => a.1 < b.1) (sortEdits l) :=
    List.Pairwise.imp₂ (fun a b hle hne => lt_of_le_of_ne hle hne)
      (sortEdits_sorted l) hdl
  have hlt' : List.Pairwise (fun a b : Edit => a.1 < b.1) (sortEdits l') :=
    List.Pairwise.imp₂ (fun a b hle hne => lt_of_le_of_ne hle hne)
      (sortEdits_sorted l') hdl'
  exact List.eq_of_perm_of_sorted
    ((sortEdits_perm l).trans (hp.trans (sortEdits_perm l').symm)) hlt hlt'

/-- The result of `consume` only depends on the consumed flag and the sorted
map. -/
theorem consume_congr (m m' : EditMap) (hc : m.consumed = m'.consumed)
    (hs : sortEdits m.map = sortEdits m'.map) (events : List Event) :
    m.consume events = m'.consume events := by
  unfold EditMap.consume
  rw [hc, hs]

/-- Claim C4 (corrected): queuing a batch of edits with pairwise disjoint
affected regions and pairwise distinct anchors in any order and then calling
`consume` yields the same outcome, event log included.  (The distinct-anchor
hypothesis is forced by the counterexample: two insertion-only edits at the
same anchor have disjoint — empty — affected regions, yet merge in
registration order.) -/
theorem addAll_order_independent (edits edits' : List Edit)
    (events : List Event) (hperm : edits.Perm edits')
    (hdisj : List.Pairwise (fun a b : Edit => regionsDisjointB a b = true) edits)
    (hdist : List.Pairwise (fun a b : Edit => a.1 ≠ b.1) edits) :
    ∃ m m', addAll edits = some m ∧ addAll edits' = some m' ∧
      m.consume events = m'.consume events := by
  have hsym : ∀ {x y : Edit}, x.1 ≠ y.1 → y.1 ≠ x.1 := fun h => Ne.symm h
  have hdist' : List.Pairwise (fun a b : Edit => a.1 ≠ b.1) edits' :=
    (hperm.pairwise_iff hsym).mp hdist
  refine ⟨⟨false, edits.filter nonNoop⟩, ⟨false, edits'.filter nonNoop⟩,
    addAll_eq hdist, addAll_eq hdist', ?_⟩
  exact consume_congr ⟨false, edits.filter nonNoop⟩
    ⟨false, edits'.filter nonNoop⟩ rfl
    (sortEdits_eq_of_perm (hperm.filter nonNoop)
      (List.Pairwise.filter nonNoop hdist)) events

/-- Witness for the corrected C4 at a concrete two-edit batch. -/
theorem addAll_order_independent_witness :
    ∃ m m', addAll [(0, 1, []), (2, 0, [default])] = some m ∧
      addAll [(2, 0, [default]), (0, 1, [])] = some m' ∧
      m.consume [default, default, default] =
        m'.consume [default, default, default] :=
  addAll_order_independent _ _ _
    (List.Perm.swap _ _ _) (by decide) (by decide)

/-- Counterexample to C4 as stated: two insertion-only edits at the same
anchor have pairwise disjoint (empty) affected regions, yet the two
registration orders produce different final logs. -/
theorem addAll_order_dependent_same_anchor :
    List.Pairwise
      (fun a b : Edit => regionsDisjointB a b = true)
      [(0, 0, [⟨EventType.enter, Token.Data, ⟨1, 1, 0⟩, none⟩]),
       (0, 0, [⟨EventType.exit, Token.Data, ⟨1, 1, 0⟩, none⟩])] ∧
    (addAll [(0, 0, [⟨EventType.enter, Token.Data, ⟨1, 1, 0⟩, none⟩]),
             (0, 0, [⟨EventType.exit, Token.Data, ⟨1, 1, 0⟩, none⟩])]).bind
        (fun m => (m.consume []).map (fun r => r.2)) =
      some [⟨EventType.enter, Token.Data, ⟨1, 1, 0⟩, none⟩,
            ⟨EventType.exit, Token.Data, ⟨1, 1, 0⟩, none⟩] ∧
    (addAll [(0, 0, [⟨EventType.exit, Token.Data, ⟨1, 1, 0⟩, none⟩]),
             (0, 0, [⟨EventType.enter, Token.Data, ⟨1, 1, 0⟩, none⟩])]).bind
        (fun m => (m.consume []).map (fun r => r.2)) =
      some [⟨EventType.exit, Token.Data, ⟨1, 1, 0⟩, none⟩,
            ⟨EventType.enter, Token.Data, ⟨1, 1, 0⟩, none⟩] ∧
    (addAll [(0, 0, [⟨EventType.enter, Token.Data, ⟨1, 1, 0⟩, none⟩]),
             (0, 0, [⟨EventType.exit, Token.Data, ⟨1, 1, 0⟩, none⟩])]).bind
        (fun m => (m.consume []).map (fun r => r.2)) ≠
      (addAll [(0, 0, [⟨EventType.exit, Token.Data, ⟨1, 1, 0⟩, none⟩]),
               (0, 0, [⟨EventType.enter, Token.Data, ⟨1, 1, 0⟩, none⟩])]).bind
        (fun m => (m.consume []).map (fun r => r.2)) := by
  refine ⟨by decide, by decide, by decide, by decide⟩

/-! ### Balance of the event log -/

/-- Dyck-style scan of an event list: an Enter pushes its token kind, an Exit
must match the top of the stack; `none` means the sequence is ill-nested from
the given stack. -/
def scanEv : List Event → List Token → Option (List Token)
  | [], st => some st
  | e :: rest, st =>
    match e.event_type with
    | EventType.enter => scanEv rest (e.token_type :: st)
    | EventType.exit =>
      match st with
      | [] => none
      | t :: s => if t = e.token_type then scanEv rest s else none

/-- The balance invariant of the spec: every Enter has one matching later Exit
of the same token kind, with proper nesting. -/
def balancedB (l : List Event) : Bool :=
  decide (scanEv l [] = some [])

theorem scanEv_append (a b : List Event) (st : List Token) :
    scanEv (a ++ b) st = (scanEv a st).bind fun s => scanEv b s := by
  induction a generalizing st with
  | nil => simp [scanEv]
  | cons e rest ih =>
    match he : e.event_type with
    | EventType.enter => simp [scanEv, he, ih]
    | EventType.exit =>
      match st with
      | [] => simp [scanEv, he]
      | t :: s =>
        by_cases ht : t = e.token_type <;> simp [scanEv, he, ht, ih]

theorem scanEv_frame {r : List Event} :
    ∀ {s out t : List Token}, scanEv r s = some out →
    scanEv r (s ++ t) = some (out ++ t) := by
  induction r with
  | nil =>
    intro s out t h
    simp only [scanEv, Option.some.injEq] at h
    simp [scanEv, h]
  | cons e rest ih =>
    intro s out t h
    match he : e.event_type with
    | EventType.enter =>
      simp only [scanEv, he] at h ⊢
      exact ih h
    | EventType.exit =>
      match s with
      | [] => simp [scanEv, he] at h
      | u :: s' =>
        simp only [scanEv, he, List.cons_append] at h ⊢
        by_cases hu : u = e.token_type
        · rw [if_pos hu] at h ⊢
          exact ih h
        · rw [if_neg hu] at h
          exact absurd h (by simp)

/-- A balanced run scans as the identity from every stack. -/
theorem scanEv_of_balanced {r : List Event} (h : balancedB r = true)
    (st : List Token) : scanEv r st = some st := by
  have h' : scanEv r [] = some [] := by
    simpa [balancedB] using h
  simpa using scanEv_frame (t := st) h'

/-- Link rewriting does not affect the scan: it changes no event kind and no
token kind. -/
theorem scanEv_shift (jumps : List (Nat × Nat × Nat)) (l : List Event)
    (st : List Token) : scanEv (shift_links l jumps) st = scanEv l st := by
  induction l generalizing st with
  | nil => simp [shift_links]
  | cons e rest ih =>
    have he : (shiftEvent jumps e).event_type = e.event_type := rfl
    have ht : (shiftEvent jumps e).token_type = e.token_type := rfl
    match hev : e.event_type with
    | EventType.enter =>
      simp only [shift_links, List.map_cons, scanEv, he, ht, hev]
      exact ih _
    | EventType.exit =>
      match st with
      | [] => simp [shift_links, scanEv, he, hev]
      | t :: s =>
        by_cases hts : t = e.token_type
        · simp only [shift_links, List.map_cons, scanEv, he, ht, hev,
            if_pos hts]
          exact ih _
        · simp [shift_links, scanEv, he, ht, hev, if_neg hts]

/-! ### The heading (atx) resolver -/

/-- Embedding of the scanning loop of `heading_atx::resolve`: walk the events
with the `heading_inside` flag and the `data_start` / `data_end` registers; on
a HeadingAtx Exit with recorded data, queue the wrap-and-collapse edits.  The
`data_end.unwrap()` panic (comment in the source: if `start` is some, `end` is
too) and the `end - start - 1` debug-underflow panic are modelled by `none`.
`all` is the full event log (`tokenizer.events`), used for the points of the
synthesized events; `rest` is the suffix of `all` from `idx` on. -/
def resolveGo (all : List Event) :
    List Event → Nat → Bool → Option Nat → Option Nat → EditMap →
    Option EditMap
  | [], _, _, _, _, m => some m
  | e :: rest, idx, inside, ds, de, m =>
    if e.token_type = Token.HeadingAtx then
      if e.event_type = EventType.enter then
        resolveGo all rest (idx + 1) true ds de m
      else
        match ds with
        | none => resolveGo all rest (idx + 1) false none none m
        | some s =>
          match de with
          | none => none
          | some en =>
            if s + 1 ≤ en then
              (m.add s 0 [⟨EventType.enter, Token.HeadingAtxText,
                  (all.getD s default).point, none⟩]).bind fun m1 =>
                (m1.add (s + 1) (en - s - 1) []).bind fun m2 =>
                  (m2.add (en + 1) 0 [⟨EventType.exit, Token.HeadingAtxText,
                      (all.getD en default).point, none⟩]).bind fun m3 =>
                    resolveGo all rest (idx + 1) false none none m3
            else none
    else
      if inside = true ∧ e.token_type = Token.Data then
        if e.event_type = EventType.enter then
          resolveGo all rest (idx + 1) inside
            (match ds with | none => some idx | some s => some s) de m
        else
          resolveGo all rest (idx + 1) inside ds (some idx) m
      else
        resolveGo all rest (idx + 1) inside ds de m

/-- Embedding of `heading_atx::resolve`, queueing into the given map. -/
def heading_atx_resolve (events : List Event) (m : EditMap) :
    Option EditMap :=
  resolveGo events events 0 false none none m

/-- The `(data_start, data_end)` pairs the resolver acts on, one per heading,
mirroring the scan of `resolveGo` without the edit map. -/
def runsGo : List Event → Nat → Bool → Option Nat → Option Nat →
    Option (List (Nat × Nat))
  | [], _, _, _, _ => some []
  | e :: rest, idx, inside, ds, de =>
    if e.token_type = Token.HeadingAtx then
      if e.event_type = EventType.enter then
        runsGo rest (idx + 1) true ds de
      else
        match ds with
        | none => runsGo rest (idx + 1) false none none
        | some s =>
          match de with
          | none => none
          | some en =>
            if s + 1 ≤ en then
              (runsGo rest (idx + 1) false none none).map
                fun rs => (s, en) :: rs
            else none
    else
      if inside = true ∧ e.token_type = Token.Data then
        if e.event_type = EventType.enter then
          runsGo rest (idx + 1) inside
            (match ds with | none => some idx | some s => some s) de
        else
          runsGo rest (idx + 1) inside ds (some idx)
      else
        runsGo rest (idx + 1) inside ds de

/-- The resolver's runs over a full log. -/
def headingRuns (events : List Event) : Option (List (Nat × Nat)) :=
  runsGo events 0 false none none

/-- The edits the resolver queues for one recorded `(data_start, data_end)`
pair: a HeadingAtxText Enter at the first Data Enter, the removal of
everything strictly between (dropped when empty, being a no-op), and a
HeadingAtxText Exit after the last Data Exit. -/
def runEdits (all : List Event) (p : Nat × Nat) : List Edit :=
  if p.2 = p.1 + 1 then
    [(p.1, 0, [⟨EventType.enter, Token.HeadingAtxText,
        (all.getD p.1 default).point, none⟩]),
     (p.2 + 1, 0, [⟨EventType.exit, Token.HeadingAtxText,
        (all.getD p.2 default).point, none⟩])]
  else
    [(p.1, 0, [⟨EventType.enter, Token.HeadingAtxText,
        (all.getD p.1 default).point, none⟩]),
     (p.1 + 1, p.2 - p.1 - 1, []),
     (p.2 + 1, 0, [⟨EventType.exit, Token.HeadingAtxText,
        (all.getD p.2 default).point, none⟩])]

/-- Ordering discipline of the resolver's runs: each wraps a range
`[s, en]` with `s < en`, ends within the log, and the next run starts past
the previous one. -/
def runsChain : List (Nat × Nat) → Nat → Nat → Prop
  | [], _, _ => True
  | (s, en) :: rest, lo, len =>
    lo ≤ s ∧ s + 1 ≤ en ∧ en + 1 ≤ len ∧ runsChain rest (en + 2) len

/-- Does the event at index `i` exist and is it a Data Enter? -/
def isEnterData (l : List Event) (i : Nat) : Bool :=
  match l[i]? with
  | some e => decide (e.event_type = EventType.enter ∧
      e.token_type = Token.Data)
  | none => false

/-- Does the event at index `i` exist and is it a Data Exit? -/
def isExitData (l : List Event) (i : Nat) : Bool :=
  match l[i]? with
  | some e => decide (e.event_type = EventType.exit ∧
      e.token_type = Token.Data)
  | none => false

theorem add_fresh {m : List Edit} (at_ r : Nat) (a : List Event)
    (hf : ∀ x ∈ m, x.1 ≠ at_) (hn : ¬ (r = 0 ∧ a = [])) :
    (EditMap.mk false m).add at_ r a = some ⟨false, m ++ [(at_, r, a)]⟩ := by
  simp only [EditMap.add, add_impl, if_neg hn]
  rw [insertEdit_fresh hf]
  simp

theorem add_nop (m : List Edit) (at_ : Nat) (r : Nat) (a : List Event)
    (h : r = 0 ∧ a = []) :
    (EditMap.mk false m).add at_ r a = some ⟨false, m⟩ := by
  simp [EditMap.add, add_impl, h.1, h.2]

/-- Characterization of the resolver scan: starting from an unconsumed map
whose anchors all lie below the scan position (and below any recorded
`data_start`), the resolver computes exactly the runs of `runsGo` and appends
their edits, in order, to the map. -/
theorem resolveGo_char (all : List Event) :
    ∀ (rest : List Event) (idx : Nat) (inside : Bool) (ds de : Option Nat)
      (m : List Edit),
    (∀ x ∈ m, x.1 < idx) →
    (∀ s, ds = some s → (∀ x ∈ m, x.1 < s) ∧ s < idx) →
    (∀ en, de = some en → en < idx) →
    resolveGo all rest idx inside ds de (EditMap.mk false m) =
      (runsGo rest idx inside ds de).map
        fun rs => EditMap.mk false (m ++ rs.flatMap (runEdits all)) := by
  intro rest
  induction rest with
  | nil =>
    intro idx inside ds de m _ _ _
    simp [resolveGo, runsGo]
  | cons e rest ih =>
    intro idx inside ds de m hm hds hde
    by_cases hha : e.token_type = Token.HeadingAtx
    · by_cases hev : e.event_type = EventType.enter
      · simp only [resolveGo, runsGo, if_pos hha, if_pos hev]
        exact ih (idx + 1) true ds de m
          (fun x hx => Nat.lt_succ_of_lt (hm x hx))
          (fun s hs => ⟨(hds s hs).1, Nat.lt_succ_of_lt (hds s hs).2⟩)
          (fun en hen => Nat.lt_succ_of_lt (hde en hen))
      · cases ds with
        | none =>
          simp only [resolveGo, runsGo, if_pos hha, if_neg hev]
          exact ih (idx + 1) false none none m
            (fun x hx => Nat.lt_succ_of_lt (hm x hx))
            (by simp) (by simp)
        | some s =>
          cases de with
          | none =>
            simp only [resolveGo, runsGo, if_pos hha, if_neg hev]
            rfl
          | some en =>
            simp only [resolveGo, runsGo, if_pos hha, if_neg hev]
            by_cases hg : s + 1 ≤ en
            · rw [if_pos hg, if_pos hg]
              obtain ⟨hms, hsidx⟩ := hds s rfl
              have henidx := hde en rfl
              have h1 := add_fresh (m := m) s 0 [⟨EventType.enter,
                  Token.HeadingAtxText, (all.getD s default).point, none⟩]
                (fun x hx => Nat.ne_of_lt (hms x hx)) (by simp)
              rw [h1]
              simp only [Option.some_bind]
              by_cases hadj : en = s + 1
              · have h2 := add_nop (m ++ [(s, 0, [⟨EventType.enter,
                    Token.HeadingAtxText, (all.getD s default).point, none⟩])])
                  (s + 1) (en - s - 1) [] ⟨by omega, rfl⟩
                rw [h2]
                simp only [Option.some_bind]
                have h3 := add_fresh
                  (m := m ++ [(s, 0, [⟨EventType.enter, Token.HeadingAtxText,
                    (all.getD s default).point, none⟩])])
                  (en + 1) 0 [⟨EventType.exit, Token.HeadingAtxText,
                    (all.getD en default).point, none⟩]
                  (by
                    intro x hx
                    rcases List.mem_append.mp hx with hx' | hx'
                    · exact Nat.ne_of_lt (by have := hms x hx'; omega)
                    · rcases List.mem_singleton.mp hx' with rfl
                      exact Nat.ne_of_lt (by omega))
                  (by simp)
                rw [h3]
                simp only [Option.some_bind]
                rw [ih (idx + 1) false none none _
                  (by
                    intro x hx
                    rcases List.mem_append.mp hx with hx' | hx'
                    · rcases List.mem_append.mp hx' with hx'' | hx''
                      · exact Nat.lt_succ_of_lt (hm x hx'')
                      · rcases List.mem_singleton.mp hx'' with rfl
                        exact Nat.lt_succ_of_lt hsidx
                    · rcases List.mem_singleton.mp hx' with rfl
                      exact Nat.succ_lt_succ henidx)
                  (by simp) (by simp)]
                cases hr : runsGo rest (idx + 1) false none none with
                | none => rfl
                | some rs =>
                  simp [runEdits, hadj, List.append_assoc]
              · have h2 := add_fresh
                  (m := m ++ [(s, 0, [⟨EventType.enter, Token.HeadingAtxText,
                    (all.getD s default).point, none⟩])])
                  (s + 1) (en - s - 1) []
                  (by
                    intro x hx
                    rcases List.mem_append.mp hx with hx' | hx'
                    · exact Nat.ne_of_lt (by have := hms x hx'; omega)
                    · rcases List.mem_singleton.mp hx' with rfl
                      exact Nat.ne_of_lt (by omega))
                  (by
                    intro hc
                    exact hadj (by omega))
                rw [h2]
                simp only [Option.some_bind]
                have h3 := add_fresh
                  (m := (m ++ [(s, 0, [⟨EventType.enter, Token.HeadingAtxText,
                    (all.getD s default).point, none⟩])]) ++
                    [(s + 1, en - s - 1, [])])
                  (en + 1) 0 [⟨EventType.exit, Token.HeadingAtxText,
                    (all.getD en default).point, none⟩]
                  (by
                    intro x hx
                    rcases List.mem_append.mp hx with hx' | hx'
                    · rcases List.mem_append.mp hx' with hx'' | hx''
                      · exact Nat.ne_of_lt (by have := hms x hx''; omega)
                      · rcases List.mem_singleton.mp hx'' with rfl
                        exact Nat.ne_of_lt (by omega)
                    · rcases List.mem_singleton.mp hx' with rfl
                      exact Nat.ne_of_lt (by omega))
                  (by simp)
                rw [h3]
                simp only [Option.some_bind]
                rw [ih (idx + 1) false none none _
                  (by
                    intro x hx
                    rcases List.mem_append.mp hx with hx' | hx'
                    · rcases List.mem_append.mp hx' with hx'' | hx''
                      · rcases List.mem_append.mp hx'' with h3' | h3'
                        · exact Nat.lt_succ_of_lt (hm x h3')
                        · rcases List.mem_singleton.mp h3' with rfl
                          exact Nat.lt_succ_of_lt hsidx
                      · rcases List.mem_singleton.mp hx'' with rfl
                        show s + 1 < idx + 1
                        omega
                    · rcases List.mem_singleton.mp hx' with rfl
                      exact Nat.succ_lt_succ henidx)
                  (by simp) (by simp)]
                cases hr : runsGo rest (idx + 1) false none none with
                | none => rfl
                | some rs =>
                  simp [runEdits, hadj, List.append_assoc]
            · rw [if_neg hg, if_neg hg]
              rfl
    · simp only [resolveGo, runsGo, if_neg hha]
      by_cases hdata : inside = true ∧ e.token_type = Token.Data
      · rw [if_pos hdata, if_pos hdata]
        by_cases hev : e.event_type = EventType.enter
        · rw [if_pos hev, if_pos hev]
          cases ds with
          | none =>
            exact ih (idx + 1) inside (some idx) de m
              (fun x hx => Nat.lt_succ_of_lt (hm x hx))
              (fun s hs => by
                injection hs with h
                subst h
                exact ⟨hm, Nat.lt_succ_self idx⟩)
              (fun en hen => Nat.lt_succ_of_lt (hde en hen))
          | some s0 =>
            exact ih (idx + 1) inside (some s0) de m
              (fun x hx => Nat.lt_succ_of_lt (hm x hx))
              (fun s hs => by
                injection hs with h
                subst h
                exact ⟨(hds s0 rfl).1, Nat.lt_succ_of_lt (hds s0 rfl).2⟩)
              (fun en hen => Nat.lt_succ_of_lt (hde en hen))
        · rw [if_neg hev, if_neg hev]
          exact ih (idx + 1) inside ds (some idx) m
            (fun x hx => Nat.lt_succ_of_lt (hm x hx))
            (fun s hs => ⟨(hds s hs).1, Nat.lt_succ_of_lt (hds s hs).2⟩)
            (fun en hen => by
              injection hen with h
              subst h
              exact Nat.lt_succ_self idx)
      · rw [if_neg hdata, if_neg hdata]
        exact ih (idx + 1) inside ds de m
          (fun x hx => Nat.lt_succ_of_lt (hm x hx))
          (fun s hs => ⟨(hds s hs).1, Nat.lt_succ_of_lt (hds s hs).2⟩)
          (fun en hen => Nat.lt_succ_of_lt (hde en hen))

theorem runsChain_mono {runs : List (Nat × Nat)} {lo lo' len : Nat}
    (h : runsChain runs lo len) (hle : lo' ≤ lo) : runsChain runs lo' len := by
  cases runs with
  | nil => trivial
  | cons p rest =>
    obtain ⟨s, en⟩ := p
    simp only [runsChain] at h ⊢
    exact ⟨le_trans hle h.1, h.2.1, h.2.2.1, h.2.2.2⟩

/-- The runs recorded by the resolver scan are ordered, within the log, wrap a
nonempty range, and point at a Data Enter / Data Exit pair. -/
theorem runsGo_chain {events : List Event} :
    ∀ (rest : List Event) (idx : Nat) (inside : Bool) (ds de : Option Nat)
      (runs : List (Nat × Nat)),
    rest = events.drop idx →
    (∀ s, ds = some s → s < idx ∧ isEnterData events s = true) →
    (∀ en, de = some en → en < idx ∧ isExitData events en = true) →
    runsGo rest idx inside ds de = some runs →
    runsChain runs (match ds with | some s => s | none => idx)
      events.length ∧
    ∀ p ∈ runs, isEnterData events p.1 = true ∧ isExitData events p.2 = true := by
  intro rest
  induction rest with
  | nil =>
    intro idx inside ds de runs _ _ _ hrun
    simp only [runsGo, Option.some.injEq] at hrun
    subst hrun
    exact ⟨trivial, by simp⟩
  | cons e rest ih =>
    intro idx inside ds de runs hrest hds hde hrun
    have hidx : events[idx]? = some e := by
      have h0 : (events.drop idx)[0]? = some e := by
        rw [← hrest]; simp
      rwa [List.getElem?_drop, Nat.add_zero] at h0
    have hlen : idx < events.length := by
      by_contra hc
      rw [List.getElem?_eq_none (by omega)] at hidx
      exact absurd hidx (by simp)
    have hrest' : rest = events.drop (idx + 1) := by
      have h0 : (events.drop idx).tail = events.drop (idx + 1) :=
        List.tail_drop events idx
      rw [← hrest] at h0
      simpa using h0
    by_cases hha : e.token_type = Token.HeadingAtx
    · by_cases hev : e.event_type = EventType.enter
      · simp only [runsGo, if_pos hha, if_pos hev] at hrun
        have := ih (idx + 1) true ds de runs hrest'
          (fun s hs => ⟨Nat.lt_succ_of_lt (hds s hs).1, (hds s hs).2⟩)
          (fun en hen => ⟨Nat.lt_succ_of_lt (hde en hen).1, (hde en hen).2⟩)
          hrun
        refine ⟨?_, this.2⟩
        cases ds with
        | none => exact runsChain_mono this.1 (Nat.le_succ idx)
        | some s => exact this.1
      · cases ds with
        | none =>
          simp only [runsGo, if_pos hha, if_neg hev] at hrun
          have := ih (idx + 1) false none none runs hrest'
            (by simp) (by simp) hrun
          exact ⟨runsChain_mono this.1 (Nat.le_succ idx), this.2⟩
        | some s =>
          cases de with
          | none => simp [runsGo, if_pos hha, if_neg hev] at hrun
          | some en =>
            simp only [runsGo, if_pos hha, if_neg hev] at hrun
            by_cases hg : s + 1 ≤ en
            · rw [if_pos hg] at hrun
              rcases Option.map_eq_some'.mp hrun with ⟨rs, hrs, hcons⟩
              subst hcons
              obtain ⟨hsidx, hsdat⟩ := hds s rfl
              obtain ⟨henidx, hendat⟩ := hde en rfl
              have := ih (idx + 1) false none none rs hrest'
                (by simp) (by simp) hrs
              refine ⟨?_, ?_⟩
              · simp only [runsChain]
                exact ⟨le_refl s, hg, by omega,
                  runsChain_mono this.1 (by show en + 2 ≤ idx + 1; omega)⟩
              · intro p hp
                rcases List.mem_cons.mp hp with rfl | hp'
                · exact ⟨hsdat, hendat⟩
                · exact this.2 p hp'
            · rw [if_neg hg] at hrun
              exact absurd hrun (by simp)
    · by_cases hdata : inside = true ∧ e.token_type = Token.Data
      · by_cases hev : e.event_type = EventType.enter
        · cases ds with
          | none =>
            simp only [runsGo, if_neg hha, if_pos hdata, if_pos hev] at hrun
            have hed : isEnterData events idx = true := by
              unfold isEnterData
              rw [hidx]
              simp [hev, hdata.2]
            have := ih (idx + 1) inside (some idx) de runs hrest'
              (fun s hs => by
                injection hs with h
                subst h
                exact ⟨Nat.lt_succ_self idx, hed⟩)
              (fun en hen => ⟨Nat.lt_succ_of_lt (hde en hen).1,
                (hde en hen).2⟩)
              hrun
            exact this
          | some s0 =>
            simp only [runsGo, if_neg hha, if_pos hdata, if_pos hev] at hrun
            have := ih (idx + 1) inside (some s0) de runs hrest'
              (fun s hs => by
                injection hs with h
                subst h
                exact ⟨Nat.lt_succ_of_lt (hds s0 rfl).1, (hds s0 rfl).2⟩)
              (fun en hen => ⟨Nat.lt_succ_of_lt (hde en hen).1,
                (hde en hen).2⟩)
              hrun
            exact this
        · simp only [runsGo, if_neg hha, if_pos hdata, if_neg hev] at hrun
          have hxd : isExitData events idx = true := by
            unfold isExitData
            rw [hidx]
            have : e.event_type = EventType.exit := by
              cases hev' : e.event_type
              · exact absurd hev' hev
              · rfl
            simp [this, hdata.2]
          have := ih (idx + 1) inside ds (some idx) runs hrest'
            (fun s hs => ⟨Nat.lt_succ_of_lt (hds s hs).1, (hds s hs).2⟩)
            (fun en hen => by
              injection hen with h
              subst h
              exact ⟨Nat.lt_succ_self idx, hxd⟩)
            hrun
          refine ⟨?_, this.2⟩
          cases ds with
          | none => exact runsChain_mono this.1 (Nat.le_succ idx)
          | some s => exact this.1
      · simp only [runsGo, if_neg hha, if_neg hdata] at hrun
        have := ih (idx + 1) inside ds de runs hrest'
          (fun s hs => ⟨Nat.lt_succ_of_lt (hds s hs).1, (hds s hs).2⟩)
          (fun en hen => ⟨Nat.lt_succ_of_lt (hde en hen).1, (hde en hen).2⟩)
          hrun
        refine ⟨?_, this.2⟩
        cases ds with
        | none => exact runsChain_mono this.1 (Nat.le_succ idx)
        | some s => exact this.1

/-- The anchor of the last edit of a list, or a default bound when empty:
this is the bound `chainRevB` leaves for whatever follows. -/
def listLastAnchor (l : List Edit) (dflt : Nat) : Nat :=
  match l.getLast? with
  | some e => e.1
  | none => dflt

theorem listLastAnchor_cons (x : Edit) (rest : List Edit) (n : Nat) :
    listLastAnchor (x :: rest) n = listLastAnchor rest x.1 := by
  cases rest with
  | nil => rfl
  | cons y t =>
    cases hgl : (y :: t).getLast? with
    | none => simp at hgl
    | some q => simp [listLastAnchor, List.getLast?_cons_cons, hgl]

theorem chainRevB_append (l1 l2 : List Edit) (n : Nat) :
    chainRevB (l1 ++ l2) n =
      (chainRevB l1 n && chainRevB l2 (listLastAnchor l1 n)) := by
  induction l1 generalizing n with
  | nil => simp [chainRevB, listLastAnchor]
  | cons x rest ih =>
    obtain ⟨a, r, v⟩ := x
    simp only [List.cons_append, chainRevB, ih, listLastAnchor_cons,
      Bool.and_assoc, List.append_eq]

/-- The edits of a chained run list are reverse-chain well formed, and the
lowest anchor left over is the first run's start. -/
theorem runEdits_chainRev (all : List Event) :
    ∀ (runs : List (Nat × Nat)) (lo len : Nat),
    runsChain runs lo len →
    chainRevB ((runs.flatMap (runEdits all)).reverse) len = true ∧
    listLastAnchor ((runs.flatMap (runEdits all)).reverse) len =
      (match runs with | [] => len | p :: _ => p.1) := by
  intro runs
  induction runs with
  | nil =>
    intro lo len _
    exact ⟨rfl, rfl⟩
  | cons p rest ih =>
    intro lo len h
    obtain ⟨s, en⟩ := p
    simp only [runsChain] at h
    obtain ⟨hlos, hsen, henlen, hrest⟩ := h
    obtain ⟨ih1, ih2⟩ := ih (en + 2) len hrest
    have hB : en + 1 ≤ listLastAnchor
        ((rest.flatMap (runEdits all)).reverse) len := by
      rw [ih2]
      cases rest with
      | nil =>
        show en + 1 ≤ len
        omega
      | cons q t =>
        obtain ⟨s', en'⟩ := q
        simp only [runsChain] at hrest
        show en + 1 ≤ s'
        omega
    have hsplit : (((s, en) :: rest).flatMap (runEdits all)).reverse =
        (rest.flatMap (runEdits all)).reverse ++
          (runEdits all (s, en)).reverse := by
      simp [List.flatMap_cons, List.reverse_append]
    rw [hsplit, chainRevB_append, ih1]
    constructor
    · simp only [Bool.true_and]
      by_cases hadj : en = s + 1
      · simp only [runEdits, if_pos (by simpa using hadj)]
        simp only [List.reverse_cons, List.reverse_nil, List.nil_append,
          chainRevB, Bool.and_eq_true, decide_eq_true_eq]
        refine ⟨by omega, by omega, trivial⟩
      · simp only [runEdits, if_neg (by simpa using hadj)]
        simp only [List.reverse_cons, List.reverse_nil, List.nil_append,
          chainRevB, Bool.and_eq_true, decide_eq_true_eq]
        refine ⟨by omega, by omega, by omega, trivial⟩
    · rw [listLastAnchor]
      rw [List.getLast?_append]
      by_cases hadj : en = s + 1
      · simp [runEdits, if_pos (by simpa using hadj)]
      · simp [runEdits, if_neg (by simpa using hadj)]

theorem mem_runEdits {all : List Event} {s en : Nat} {e : Edit}
    (h : e ∈ runEdits all (s, en)) :
    e.1 = s ∨ e.1 = s + 1 ∨ e.1 = en + 1 := by
  unfold runEdits at h
  by_cases hadj : en = s + 1
  · rw [if_pos (by simpa using hadj)] at h
    simp only [List.mem_cons, List.mem_singleton, List.not_mem_nil,
      or_false] at h
    rcases h with rfl | rfl
    · left; rfl
    · right; right; rfl
  · rw [if_neg (by simpa using hadj)] at h
    simp only [List.mem_cons, List.mem_singleton, List.not_mem_nil,
      or_false] at h
    rcases h with rfl | rfl | rfl
    · left; rfl
    · right; left; rfl
    · right; right; rfl

theorem runEdits_pairwise {all : List Event} {s en : Nat} (h : s + 1 ≤ en) :
    List.Pairwise (fun a b : Edit => a.1 ≤ b.1) (runEdits all (s, en)) := by
  unfold runEdits
  by_cases hadj : en = s + 1
  · rw [if_pos (by simpa using hadj)]
    refine List.Pairwise.cons ?_ (List.Pairwise.cons ?_ List.Pairwise.nil)
    · intro b hb
      rcases List.mem_singleton.mp hb with rfl
      show s ≤ en + 1
      omega
    · intro b hb
      exact absurd hb (List.not_mem_nil b)
  · rw [if_neg (by simpa using hadj)]
    refine List.Pairwise.cons ?_ (List.Pairwise.cons ?_
      (List.Pairwise.cons ?_ List.Pairwise.nil))
    · intro b hb
      simp only [List.mem_cons, List.mem_singleton, List.not_mem_nil,
        or_false] at hb
      rcases hb with rfl | rfl
      · show s ≤ s + 1
        omega
      · show s ≤ en + 1
        omega
    · intro b hb
      rcases List.mem_singleton.mp hb with rfl
      show s + 1 ≤ en + 1
      omega
    · intro b hb
      exact absurd hb (List.not_mem_nil b)

/-- Every edit anchor of a chained run list is at least the chain's lower
bound. -/
theorem runEdits_anchor_lb (all : List Event) :
    ∀ {runs : List (Nat × Nat)} {lo len : Nat}, runsChain runs lo len →
    ∀ e ∈ runs.flatMap (runEdits all), lo ≤ e.1 := by
  intro runs
  induction runs with
  | nil => intro lo len _ e he; simp at he
  | cons p rest ih =>
    intro lo len h e he
    obtain ⟨s, en⟩ := p
    simp only [runsChain] at h
    obtain ⟨hlos, hsen, henlen, hrest⟩ := h
    rw [List.flatMap_cons, List.mem_append] at he
    rcases he with he' | he'
    · rcases mem_runEdits he' with h1 | h1 | h1 <;> omega
    · have := ih hrest e he'
      omega

/-- The edits of a chained run list are sorted by anchor. -/
theorem runEdits_sorted (all : List Event) :
    ∀ {runs : List (Nat × Nat)} {lo len : Nat}, runsChain runs lo len →
    List.Pairwise (fun a b : Edit => a.1 ≤ b.1)
      (runs.flatMap (runEdits all)) := by
  intro runs
  induction runs with
  | nil => intro lo len _; simp
  | cons p rest ih =>
    intro lo len h
    obtain ⟨s, en⟩ := p
    simp only [runsChain] at h
    obtain ⟨hlos, hsen, henlen, hrest⟩ := h
    rw [List.flatMap_cons, List.pairwise_append]
    refine ⟨runEdits_pairwise hsen, ih hrest, ?_⟩
    intro a ha b hb
    have hb' := runEdits_anchor_lb all hrest b hb
    rcases mem_runEdits ha with h1 | h1 | h1 <;> omega

theorem sortEdits_of_sorted {l : List Edit}
    (h : List.Pairwise (fun a b : Edit => a.1 ≤ b.1) l) : sortEdits l = l :=
  List.Sorted.insertionSort_eq h

theorem runsChain_snoc :
    ∀ {rs : List (Nat × Nat)} {s en lo len : Nat},
    runsChain (rs ++ [(s, en)]) lo len →
    runsChain rs lo s ∧ lo ≤ s ∧ s + 1 ≤ en ∧ en + 1 ≤ len := by
  intro rs
  induction rs with
  | nil =>
    intro s en lo len h
    simp only [List.nil_append, runsChain] at h
    exact ⟨trivial, h.1, h.2.1, h.2.2.1⟩
  | cons q t ih =>
    intro s en lo len h
    obtain ⟨s0, e0⟩ := q
    simp only [List.cons_append, runsChain] at h ⊢
    obtain ⟨h1, h2, h3, h4⟩ := h
    obtain ⟨hc, hlo, hsen, hlen⟩ := ih h4
    exact ⟨⟨h1, h2, by omega, hc⟩, by omega, hsen, hlen⟩

theorem runsChain_bounds :
    ∀ {runs : List (Nat × Nat)} {lo len : Nat}, runsChain runs lo len →
    ∀ p ∈ runs, lo ≤ p.1 ∧ p.1 + 1 ≤ p.2 ∧ p.2 + 1 ≤ len := by
  intro runs
  induction runs with
  | nil => intro lo len _ p hp; simp at hp
  | cons q t ih =>
    intro lo len h p hp
    obtain ⟨s0, e0⟩ := q
    simp only [runsChain] at h
    rcases List.mem_cons.mp hp with rfl | hp'
    · exact ⟨h.1, h.2.1, h.2.2.1⟩
    · have := ih h.2.2.2 p hp'
      exact ⟨by omega, this.2.1, this.2.2⟩

theorem take_one_eq {l : List Event} {e : Event} (h : l[0]? = some e) :
    l.take 1 = [e] := by
  cases l with
  | nil => simp at h
  | cons a t =>
    simp only [List.getElem?_cons_zero, Option.some.injEq] at h
    subst h
    rfl

theorem events_decomp {events : List Event} {s en : Nat} (h1 : s ≤ en + 1)
    (h2 : en + 1 ≤ events.length) :
    events = events.take s ++ (events.drop s).take (en + 1 - s) ++
      events.drop (en + 1) := by
  conv_lhs => rw [← List.take_append_drop s events]
  rw [List.append_assoc]
  congr 1
  conv_lhs => rw [← List.take_append_drop (en + 1 - s) (events.drop s)]
  congr 1
  rw [List.drop_drop]
  congr 1
  omega

/-- Applying the edits of a chained run list whose wrapped slices are
balanced, and whose endpoints are a Data Enter / Data Exit pair, preserves
the scan outcome of the log from every stack. -/
theorem applyRev_balance (jumps : List (Nat × Nat × Nat)) (all : List Event) :
    ∀ (runs : List (Nat × Nat)) (lo : Nat) (events : List Event),
    runsChain runs lo events.length →
    (∀ p ∈ runs, balancedB ((events.drop p.1).take (p.2 + 1 - p.1)) = true) →
    (∀ p ∈ runs, isEnterData events p.1 = true ∧
      isExitData events p.2 = true) →
    ∀ st, scanEv (applyRev jumps
        ((runs.flatMap (runEdits all)).reverse) events) st =
      scanEv events st := by
  intro runs
  induction runs using List.reverseRecOn with
  | nil =>
    intro lo events _ _ _ st
    simp [applyRev, scanEv_shift]
  | append_singleton rs p ihr =>
    intro lo events hch hsl hfacts st
    obtain ⟨s, en⟩ := p
    obtain ⟨hch', hlos, hsen, henlen⟩ := runsChain_snoc hch
    have hsplit : ((rs ++ [(s, en)]).flatMap (runEdits all)).reverse =
        (runEdits all (s, en)).reverse ++
          (rs.flatMap (runEdits all)).reverse := by
      simp [List.flatMap_append, List.reverse_append]
    rw [hsplit]
    obtain ⟨hsd, hed⟩ := hfacts (s, en) (by simp)
    have hslice := hsl (s, en) (by simp)
    simp only at hsd hed hslice
    have htks : (events.take s).length = s := by
      rw [List.length_take]; omega
    have hIH : ∀ st', scanEv (applyRev jumps
        ((rs.flatMap (runEdits all)).reverse) (events.take s)) st' =
        scanEv (events.take s) st' := by
      intro st'
      refine ihr lo (events.take s) (by rw [htks]; exact hch') ?_ ?_ st'
      · intro q hq
        have hb := runsChain_bounds hch' q hq
        have heq : ((events.take s).drop q.1).take (q.2 + 1 - q.1) =
            (events.drop q.1).take (q.2 + 1 - q.1) := by
          rw [List.drop_take, List.take_take]
          congr 1
          omega
        rw [heq]
        exact hsl q (by simp [hq])
      · intro q hq
        have hb := runsChain_bounds hch' q hq
        have h1 : isEnterData (events.take s) q.1 = isEnterData events q.1 := by
          unfold isEnterData
          rw [List.getElem?_take_of_lt (by omega)]
        have h2 : isExitData (events.take s) q.2 = isExitData events q.2 := by
          unfold isExitData
          rw [List.getElem?_take_of_lt (by omega)]
        rw [h1, h2]
        exact hfacts q (by simp [hq])
    have hdecomp := events_decomp (by omega : s ≤ en + 1) henlen
    by_cases hadj : en = s + 1
    · -- adjacent endpoints: the kept middle is the whole balanced slice
      have hre : runEdits all (s, en) =
          [(s, 0, [⟨EventType.enter, Token.HeadingAtxText,
              (all.getD s default).point, none⟩]),
           (en + 1, 0, [⟨EventType.exit, Token.HeadingAtxText,
              (all.getD en default).point, none⟩])] := by
        unfold runEdits
        rw [if_pos (by simpa using hadj)]
      rw [hre]
      simp only [List.reverse_cons, List.reverse_nil, List.nil_append,
        List.cons_append, List.append_nil]
      simp only [applyRev, Nat.add_zero]
      have ht1 : (events.take (en + 1)).take s = events.take s := by
        rw [List.take_take]
        congr 1
        omega
      have ht2 : (events.take (en + 1)).drop s =
          (events.drop s).take (en + 1 - s) := by
        rw [List.drop_take]
      rw [ht1, ht2]
      conv_rhs => rw [hdecomp]
      simp only [scanEv_append]
      cases hb : scanEv (events.take s) st with
      | none => simp [hIH st, hb]
      | some st1 =>
        rw [hIH st]
        rw [hb]
        simp only [Option.some_bind]
        have hE : scanEv [(⟨EventType.enter, Token.HeadingAtxText,
            (all.getD s default).point, none⟩ : Event)] st1 =
            some (Token.HeadingAtxText :: st1) := by
          simp [scanEv]
        rw [hE]
        simp only [Option.some_bind]
        rw [scanEv_shift]
        rw [scanEv_of_balanced hslice]
        simp only [Option.some_bind]
        have hX : scanEv [(⟨EventType.exit, Token.HeadingAtxText,
            (all.getD en default).point, none⟩ : Event)]
            (Token.HeadingAtxText :: st1) = some st1 := by
          simp [scanEv]
        rw [hX]
        simp only [Option.some_bind]
        rw [scanEv_shift]
        rw [scanEv_of_balanced hslice]
        simp only [Option.some_bind]
    · -- separated endpoints: the middle is removed, the endpoints kept
      have hre : runEdits all (s, en) =
          [(s, 0, [⟨EventType.enter, Token.HeadingAtxText,
              (all.getD s default).point, none⟩]),
           (s + 1, en - s - 1, []),
           (en + 1, 0, [⟨EventType.exit, Token.HeadingAtxText,
              (all.getD en default).point, none⟩])] := by
        unfold runEdits
        rw [if_neg (by simpa using hadj)]
      rw [hre]
      simp only [List.reverse_cons, List.reverse_nil, List.nil_append,
        List.cons_append, List.append_nil]
      simp only [applyRev, Nat.add_zero]
      obtain ⟨eS, heS, heSt⟩ : ∃ e, events[s]? = some e ∧
          (e.event_type = EventType.enter ∧ e.token_type = Token.Data) := by
        unfold isEnterData at hsd
        cases hq : events[s]? with
        | none => rw [hq] at hsd; simp at hsd
        | some e =>
          rw [hq] at hsd
          exact ⟨e, rfl, by simpa using hsd⟩
      obtain ⟨eX, heX, heXt⟩ : ∃ e, events[en]? = some e ∧
          (e.event_type = EventType.exit ∧ e.token_type = Token.Data) := by
        unfold isExitData at hed
        cases hq : events[en]? with
        | none => rw [hq] at hed; simp at hed
        | some e =>
          rw [hq] at hed
          exact ⟨e, rfl, by simpa using hed⟩
      have harith : s + 1 + (en - s - 1) = en := by omega
      rw [harith]
      have ht1 : (events.take (en + 1)).take (s + 1) = events.take (s + 1) := by
        rw [List.take_take]
        congr 1
        omega
      have ht2 : (events.take (en + 1)).drop en = [eX] := by
        rw [List.drop_take]
        have h1 : en + 1 - en = 1 := by omega
        rw [h1]
        refine take_one_eq ?_
        rw [List.getElem?_drop, Nat.add_zero]
        exact heX
      have ht3 : (events.take (s + 1)).take s = events.take s := by
        rw [List.take_take]
        congr 1
        omega
      have ht4 : (events.take (s + 1)).drop s = [eS] := by
        rw [List.drop_take]
        have h1 : s + 1 - s = 1 := by omega
        rw [h1]
        refine take_one_eq ?_
        rw [List.getElem?_drop, Nat.add_zero]
        exact heS
      rw [ht1, ht2, ht3, ht4]
      conv_rhs => rw [hdecomp]
      simp only [scanEv_append]
      cases hb : scanEv (events.take s) st with
      | none => simp [hIH st, hb]
      | some st1 =>
        rw [hIH st]
        rw [hb]
        simp only [Option.some_bind]
        have hE : scanEv [(⟨EventType.enter, Token.HeadingAtxText,
            (all.getD s default).point, none⟩ : Event)] st1 =
            some (Token.HeadingAtxText :: st1) := by
          simp [scanEv]
        rw [hE]
        simp only [Option.some_bind]
        have hS : scanEv (shift_links [eS] jumps) (Token.HeadingAtxText :: st1) =
            some (Token.Data :: Token.HeadingAtxText :: st1) := by
          rw [scanEv_shift]
          simp [scanEv, heSt.1, heSt.2]
        rw [hS]
        have hnil : ∀ st' : List Token, scanEv [] st' = some st' :=
          fun st' => rfl
        simp only [Option.some_bind, hnil]
        have hXe : scanEv (shift_links [eX] jumps)
            (Token.Data :: Token.HeadingAtxText :: st1) =
            some (Token.HeadingAtxText :: st1) := by
          rw [scanEv_shift]
          simp [scanEv, heXt.1, heXt.2]
        rw [hXe]
        simp only [Option.some_bind]
        have hX : scanEv [(⟨EventType.exit, Token.HeadingAtxText,
            (all.getD en default).point, none⟩ : Event)]
            (Token.HeadingAtxText :: st1) = some st1 := by
          simp [scanEv]
        rw [hX]
        simp only [Option.some_bind]
        rw [scanEv_shift]
        rw [scanEv_of_balanced hslice]
        simp only [Option.some_bind]

/-! ### Claim C2: the heading (atx) resolver and log balance -/

/-- Claim C2 (corrected): for a balanced log on which the heading (atx)
resolver completes, the resolver queues, per recorded heading data range
`(s, en)`, exactly one HeadingAtxText Enter at the first Data Enter `s`, one
matching Exit after the last Data Exit `en`, and the removal of the events
strictly between them; and provided each wrapped slice `events[s ..= en]` is
itself balanced — the hypothesis the counterexample forces — the log is still
balanced after the edits are applied by `EditMap::consume`. -/
theorem heading_resolve_preserves_balance (events : List Event)
    (runs : List (Nat × Nat)) (hbal : balancedB events = true)
    (hrg : headingRuns events = some runs)
    (hsl : ∀ p ∈ runs,
      balancedB ((events.drop p.1).take (p.2 + 1 - p.1)) = true) :
    ∃ em em2 out, heading_atx_resolve events EditMap.new = some em ∧
      em.map = runs.flatMap (runEdits events) ∧
      em.consume events = some (em2, out) ∧
      balancedB out = true := by
  unfold headingRuns at hrg
  have hc := runsGo_chain events 0 false none none runs
    (show events = events.drop 0 by simp) (by simp) (by simp) hrg
  have hsorted : sortEdits (runs.flatMap (runEdits events)) =
      runs.flatMap (runEdits events) :=
    sortEdits_of_sorted (runEdits_sorted events hc.1)
  have hchain := (runEdits_chainRev events runs 0 events.length hc.1).1
  have hcons := consume_eq_applyRev
    (show (EditMap.mk false (runs.flatMap (runEdits events))).consumed = false
      from rfl)
    (show chainRevB (sortEdits (EditMap.mk false
        (runs.flatMap (runEdits events))).map).reverse events.length = true by
      show chainRevB
        (sortEdits (runs.flatMap (runEdits events))).reverse events.length = true
      rw [hsorted]
      exact hchain)
  have hmapeq : (EditMap.mk false (runs.flatMap (runEdits events))).map =
      runs.flatMap (runEdits events) := rfl
  rw [hmapeq, hsorted] at hcons
  have hbal2 : balancedB (applyRev
      (buildJumps (runs.flatMap (runEdits events)))
      (runs.flatMap (runEdits events)).reverse events) = true := by
    unfold balancedB at hbal ⊢
    rw [applyRev_balance (buildJumps (runs.flatMap (runEdits events)))
      events runs 0 events hc.1 hsl hc.2 []]
    exact hbal
  refine ⟨⟨false, runs.flatMap (runEdits events)⟩, _, _, ?_, rfl, hcons,
    hbal2⟩
  unfold heading_atx_resolve EditMap.new
  rw [resolveGo_char events events 0 false none none []
    (by simp) (by simp) (by simp)]
  rw [hrg]
  simp

/-- Witness for the corrected C2: one heading wrapping one Data span. -/
theorem heading_resolve_preserves_balance_witness :
    ∃ em em2 out,
      heading_atx_resolve
        [⟨EventType.enter, Token.HeadingAtx, ⟨1, 1, 0⟩, none⟩,
         ⟨EventType.enter, Token.Data, ⟨1, 3, 2⟩, none⟩,
         ⟨EventType.exit, Token.Data, ⟨1, 5, 4⟩, none⟩,
         ⟨EventType.exit, Token.HeadingAtx, ⟨1, 5, 4⟩, none⟩]
        EditMap.new = some em ∧
      em.map = ([(1, 2)] : List (Nat × Nat)).flatMap (runEdits
        [⟨EventType.enter, Token.HeadingAtx, ⟨1, 1, 0⟩, none⟩,
         ⟨EventType.enter, Token.Data, ⟨1, 3, 2⟩, none⟩,
         ⟨EventType.exit, Token.Data, ⟨1, 5, 4⟩, none⟩,
         ⟨EventType.exit, Token.HeadingAtx, ⟨1, 5, 4⟩, none⟩]) ∧
      em.consume
        [⟨EventType.enter, Token.HeadingAtx, ⟨1, 1, 0⟩, none⟩,
         ⟨EventType.enter, Token.Data, ⟨1, 3, 2⟩, none⟩,
         ⟨EventType.exit, Token.Data, ⟨1, 5, 4⟩, none⟩,
         ⟨EventType.exit, Token.HeadingAtx, ⟨1, 5, 4⟩, none⟩] =
        some (em2, out) ∧
      balancedB out = true :=
  heading_resolve_preserves_balance _ [(1, 2)] (by decide) (by decide)
    (by decide)

/-- Counterexample to C2 as stated: a balanced log in which a SpaceOrTab span
straddles the boundary of the removed data run; the resolver completes, the
edits apply, and the resulting log is unbalanced (its SpaceOrTab Exit no
longer has a matching Enter). -/
theorem heading_resolve_breaks_balance_straddle :
    balancedB
      [⟨EventType.enter, Token.HeadingAtx, ⟨1, 1, 0⟩, none⟩,
       ⟨EventType.enter, Token.Data, ⟨1, 1, 0⟩, none⟩,
       ⟨EventType.exit, Token.Data, ⟨1, 1, 0⟩, none⟩,
       ⟨EventType.enter, Token.SpaceOrTab, ⟨1, 1, 0⟩, none⟩,
       ⟨EventType.enter, Token.Data, ⟨1, 1, 0⟩, none⟩,
       ⟨EventType.exit, Token.Data, ⟨1, 1, 0⟩, none⟩,
       ⟨EventType.exit, Token.SpaceOrTab, ⟨1, 1, 0⟩, none⟩,
       ⟨EventType.exit, Token.HeadingAtx, ⟨1, 1, 0⟩, none⟩] = true ∧
    (heading_atx_resolve
      [⟨EventType.enter, Token.HeadingAtx, ⟨1, 1, 0⟩, none⟩,
       ⟨EventType.enter, Token.Data, ⟨1, 1, 0⟩, none⟩,
       ⟨EventType.exit, Token.Data, ⟨1, 1, 0⟩, none⟩,
       ⟨EventType.enter, Token.SpaceOrTab, ⟨1, 1, 0⟩, none⟩,
       ⟨EventType.enter, Token.Data, ⟨1, 1, 0⟩, none⟩,
       ⟨EventType.exit, Token.Data, ⟨1, 1, 0⟩, none⟩,
       ⟨EventType.exit, Token.SpaceOrTab, ⟨1, 1, 0⟩, none⟩,
       ⟨EventType.exit, Token.HeadingAtx, ⟨1, 1, 0⟩, none⟩]
      EditMap.new).bind
      (fun em => (em.consume
        [⟨EventType.enter, Token.HeadingAtx, ⟨1, 1, 0⟩, none⟩,
         ⟨EventType.enter, Token.Data, ⟨1, 1, 0⟩, none⟩,
         ⟨EventType.exit, Token.Data, ⟨1, 1, 0⟩, none⟩,
         ⟨EventType.enter, Token.SpaceOrTab, ⟨1, 1, 0⟩, none⟩,
         ⟨EventType.enter, Token.Data, ⟨1, 1, 0⟩, none⟩,
         ⟨EventType.exit, Token.Data, ⟨1, 1, 0⟩, none⟩,
         ⟨EventType.exit, Token.SpaceOrTab, ⟨1, 1, 0⟩, none⟩,
         ⟨EventType.exit, Token.HeadingAtx, ⟨1, 1, 0⟩, none⟩]).map
        (fun r => balancedB r.2)) = some false := by
  refine ⟨by decide, by decide⟩

/-! ### A spec-modelled tokenizer engine driving the in-corpus constructs -/

/-- Modelled from the spec: the tokenizer engine state (the engine module is
not part of the corpus) — input position and lookahead, the event log, the
generic scratch fields (`size`, `marker`, `connect`, the three token slots),
the `interrupt` flag, and the enabled-constructs configuration consulted by
`heading_atx::start`. Input is a list of byte values. -/
structure Tokenizer where
  input : List Nat
  index : Nat
  line : Nat
  column : Nat
  events : List Event
  size : Nat
  marker : Nat
  connect : Bool
  token1 : Token
  token2 : Token
  token3 : Token
  interrupt : Bool
  heading_atx_enabled : Bool
  code_indented_enabled : Bool
deriving DecidableEq, Repr

/-- The current input unit (`None` at end of input). -/
def Tokenizer.current (t : Tokenizer) : Option Nat :=
  t.input[t.index]?

/-- The current position as a `Point`. -/
def Tokenizer.point (t : Tokenizer) : Point :=
  ⟨t.line, t.column, t.index⟩

/-- Append one event to the log. -/
def Tokenizer.push (t : Tokenizer) (e : Event) : Tokenizer :=
  { t with events := t.events ++ [e] }

/-- Modelled from the spec: `enter` — push an Enter event at the current
position. -/
def Tokenizer.enter (t : Tokenizer) (tok : Token) : Tokenizer :=
  t.push ⟨EventType.enter, tok, t.point, none⟩

/-- Modelled from the spec: `enter_with_content` — like `enter`, with a fresh
link carrying the content type. -/
def Tokenizer.enterWith (t : Tokenizer) (tok : Token) (ct : ContentType) :
    Tokenizer :=
  t.push ⟨EventType.enter, tok, t.point, some ⟨none, none, some ct⟩⟩

/-- Modelled from the spec: `exit` — push an Exit event at the current
position. -/
def Tokenizer.exitTok (t : Tokenizer) (tok : Token) : Tokenizer :=
  t.push ⟨EventType.exit, tok, t.point, none⟩

/-- Modelled from the spec: `consume` — advance by one input unit, tracking
line and column. -/
def Tokenizer.consume (t : Tokenizer) : Tokenizer :=
  if t.current = some 10 then
    { t with index := t.index + 1, line := t.line + 1, column := 1 }
  else
    { t with index := t.index + 1, column := t.column + 1 }

/-- Consume `n` input units. -/
def Tokenizer.consumeN : Tokenizer → Nat → Tokenizer
  | t, 0 => t
  | t, n + 1 => t.consume.consumeN n

/-- Set the forward link of an event. -/
def setLinkNext (e : Event) (n : Nat) : Event :=
  { e with link := e.link.map fun l => { l with next := some n } }

/-- Set the backward link of an event. -/
def setLinkPrev (e : Event) (p : Nat) : Event :=
  { e with link := e.link.map fun l => { l with previous := some p } }

/-- Modelled from the spec: the subtokenize `link` helper — at the moment a
continuation span is entered, its Enter event (at `index`) is linked back to
the previous span's Enter event (at `index - 2`), which is linked forward to
`index`. -/
def linkAt (events : List Event) (index : Nat) : List Event :=
  (events.set (index - 2)
      (setLinkNext (events.getD (index - 2) default) index)).set index
    (setLinkPrev (events.getD index default) (index - 2))

/-- Space or tab byte. -/
def isSpaceTab (b : Nat) : Bool :=
  b = 32 || b = 9

/-- Modelled from the spec: the `space_or_tab_min_max` helper construct —
match between `mn` and `mx` space/tab bytes, wrapped in one SpaceOrTab span
(no span and no events when zero are matched); Nok when fewer than `mn` are
present. -/
def spaceOrTabMinMax (t : Tokenizer) (mn mx : Nat) : Option Tokenizer :=
  let n := min ((t.input.drop t.index).takeWhile isSpaceTab).length mx
  if n < mn then none
  else if n = 0 then some t
  else some (((t.enter Token.SpaceOrTab).consumeN n).exitTok Token.SpaceOrTab)

/-- Modelled from the spec: the `space_or_tab` helper construct — one or more
space/tab bytes. -/
def spaceOrTab (t : Tokenizer) : Option Tokenizer :=
  spaceOrTabMinMax t 1 (t.input.length + 1)

/-- Modelled from the spec: the `space_or_tab_eol_with_options` helper —
optional whitespace, a line ending whose Enter carries the given content type
(and is linked back to the previous span when `connect` is set), then optional
whitespace; Nok when the next line is blank. -/
def spaceOrTabEol (t : Tokenizer) (ct : ContentType) (connect : Bool) :
    Option Tokenizer :=
  let t1 := match spaceOrTab t with | some x => x | none => t
  if t1.current = some 10 then
    let t2 := t1.push ⟨EventType.enter, Token.LineEnding, t1.point,
      some ⟨none, none, some ct⟩⟩
    let t3 := if connect then
        { t2 with events := linkAt t2.events (t2.events.length - 1) }
      else t2
    let t4 := t3.consume.exitTok Token.LineEnding
    let t5 := match spaceOrTab t4 with | some x => x | none => t4
    if t5.current = some 10 then none else some t5
  else none

/-! ### The heading (atx) construct state machine (from `heading_atx.rs`) -/

/-- The named states of the heading (atx) construct. -/
inductive HState where
  | before
  | seqOpen
  | atBreak
  | seqFurther
  | dataS
deriving DecidableEq, Repr

/-- One step of the heading (atx) state machine, faithful to the state
functions of `heading_atx.rs` (`before`, `sequence_open`, `at_break`,
`sequence_further`, `data`). `Sum.inr` is a terminal outcome: `some` models
`State::Ok` (with the resolver registered and `interrupt` cleared), `none`
models `State::Nok`. The attempts of the space-or-tab helpers are resolved
inline; their Nok keeps the pre-attempt state (exact rollback). The opening
fence limit is `HEADING_ATX_OPENING_FENCE_SIZE_MAX = 6`. -/
def headingStep : HState → Tokenizer → (HState × Tokenizer) ⊕ Option Tokenizer
  | HState.before, t =>
    if t.current = some 35 then
      Sum.inl (HState.seqOpen, t.enter Token.HeadingAtxSequence)
    else
      Sum.inr none
  | HState.seqOpen, t =>
    if (t.current = none ∨ t.current = some 10) ∧ 0 < t.size then
      Sum.inl (HState.atBreak,
        Tokenizer.exitTok { t with size := 0 } Token.HeadingAtxSequence)
    else if t.current = some 35 ∧ t.size < 6 then
      Sum.inl (HState.seqOpen, Tokenizer.consume { t with size := t.size + 1 })
    else if 0 < t.size then
      match spaceOrTab (Tokenizer.exitTok { t with size := 0 }
          Token.HeadingAtxSequence) with
      | some t2 => Sum.inl (HState.atBreak, t2)
      | none => Sum.inr none
    else
      Sum.inr none
  | HState.atBreak, t =>
    if t.current = none ∨ t.current = some 10 then
      Sum.inr (some { t.exitTok Token.HeadingAtx with interrupt := false })
    else if t.current = some 9 ∨ t.current = some 32 then
      match spaceOrTab t with
      | some t2 => Sum.inl (HState.atBreak, t2)
      | none => Sum.inr none
    else if t.current = some 35 then
      Sum.inl (HState.seqFurther, t.enter Token.HeadingAtxSequence)
    else
      Sum.inl (HState.dataS, t.enterWith Token.Data ContentType.text)
  | HState.seqFurther, t =>
    if t.current = some 35 then
      Sum.inl (HState.seqFurther, t.consume)
    else
      Sum.inl (HState.atBreak, t.exitTok Token.HeadingAtxSequence)
  | HState.dataS, t =>
    if t.current = none ∨ t.current = some 9 ∨ t.current = some 10 ∨
        t.current = some 32 then
      Sum.inl (HState.atBreak, t.exitTok Token.Data)
    else
      Sum.inl (HState.dataS, t.consume)

/-- Drive the heading state machine with fuel (the machine consumes input on
every loop, so any fuel beyond twice the input length is enough). -/
def headingRun : Nat → HState → Tokenizer → Option Tokenizer
  | 0, _, _ => none
  | fuel + 1, s, t =>
    match headingStep s t with
    | Sum.inl (s', t') => headingRun fuel s' t'
    | Sum.inr r => r

/-- Embedding of `heading_atx::start`: the enabled-check, the HeadingAtx
Enter, and the initial whitespace attempt (at most `TAB_SIZE - 1 = 3` when
code (indented) is enabled, unbounded otherwise), then the machine. -/
def headingFromStart (t : Tokenizer) : Option Tokenizer :=
  if t.heading_atx_enabled then
    let t1 := t.enter Token.HeadingAtx
    match spaceOrTabMinMax t1 0
        (if t1.code_indented_enabled then 3 else t1.input.length + 1) with
    | some t2 => headingRun (2 * t.input.length + 8) HState.before t2
    | none => none
  else none

/-- A fresh engine state over an input, with the title construct's three
token slots set the way the definition construct sets them. -/
def initTokenizer (input : List Nat) : Tokenizer :=
  ⟨input, 0, 1, 1, [], 0, 0, false, Token.DefinitionTitle,
    Token.DefinitionTitleMarker, Token.DefinitionTitleString, false,
    true, true⟩

/-- Run the heading (atx) construct on an input, then the resolver it
registers, then the edit map: the final event log. -/
def headingPipeline (input : List Nat) : Option (List Event) :=
  match headingFromStart (initTokenizer input) with
  | none => none
  | some t =>
    match heading_atx_resolve t.events EditMap.new with
    | none => none
    | some em =>
      match em.consume t.events with
      | none => none
      | some r => some r.2

/-! ### The title construct state machine (from `partial_title.rs`) -/

/-- The named states of the title construct. -/
inductive TState where
  | beginS
  | atBreak
  | insideS
  | escapeS
deriving DecidableEq, Repr

/-- One step of the title state machine, faithful to the state functions of
`partial_title.rs` (`begin`, `at_break`, `after_eol`, `at_blank_line`,
`inside`, `escape`).  The `space_or_tab_eol` attempt of `at_break` is
resolved inline: its Ok continues at `after_eol` (which sets `connect`), its
Nok is `at_blank_line` (overall Nok). -/
def titleStep : TState → Tokenizer → (TState × Tokenizer) ⊕ Option Tokenizer
  | TState.beginS, t =>
    if (t.current = some 34 ∨ t.current = some 39 ∨ t.current = some 41) ∧
        t.current = some t.marker then
      let t1 := (((t.enter t.token2).consume.exitTok t.token2).exitTok
        t.token1)
      Sum.inr (some { t1 with marker := 0, connect := false })
    else
      Sum.inl (TState.atBreak, t.enter t.token3)
  | TState.atBreak, t =>
    if t.current = none then
      Sum.inr none
    else if t.current = some 10 then
      match spaceOrTabEol t ContentType.string t.connect with
      | some t2 => Sum.inl (TState.atBreak, { t2 with connect := true })
      | none => Sum.inr none
    else if (t.current = some 34 ∨ t.current = some 39 ∨
        t.current = some 41) ∧ t.current = some t.marker then
      Sum.inl (TState.beginS, t.exitTok t.token3)
    else
      let t1 := t.enterWith Token.Data ContentType.string
      let t2 := if t.connect then
          { t1 with events := linkAt t1.events (t1.events.length - 1) }
        else { t1 with connect := true }
      Sum.inl (TState.insideS, t2)
  | TState.insideS, t =>
    if t.current = none ∨ t.current = some 10 then
      Sum.inl (TState.atBreak, t.exitTok Token.Data)
    else if (t.current = some 34 ∨ t.current = some 39 ∨
        t.current = some 41) ∧ t.current = some t.marker then
      Sum.inl (TState.atBreak, t.exitTok Token.Data)
    else if t.current = some 92 then
      Sum.inl (TState.escapeS, t.consume)
    else
      Sum.inl (TState.insideS, t.consume)
  | TState.escapeS, t =>
    if t.current = some 34 ∨ t.current = some 39 ∨ t.current = some 41 then
      Sum.inl (TState.insideS, t.consume)
    else
      Sum.inl (TState.insideS, t)

/-- Drive the title state machine with fuel. -/
def titleRun : Nat → TState → Tokenizer → Option Tokenizer
  | 0, _, _ => none
  | fuel + 1, s, t =>
    match titleStep s t with
    | Sum.inl (s', t') => titleRun fuel s' t'
    | Sum.inr r => r

/-- Embedding of `title::start`: marker recognition (a `(` closes with `)`),
the enclosing and marker spans, then the machine. -/
def titleFromStart (t : Tokenizer) : Option Tokenizer :=
  match t.current with
  | some c =>
    if c = 34 ∨ c = 39 ∨ c = 40 then
      let t1 := { t with marker := if c = 40 then 41 else c }
      let t2 := ((t1.enter t1.token1).enter t1.token2).consume.exitTok
        t1.token2
      titleRun (3 * t.input.length + 8) TState.beginS t2
    else none
  | none => none

/-- Run the title construct on an input: the final event log (the title
construct registers no resolver). -/
def titlePipeline (input : List Nat) : Option (List Event) :=
  (titleFromStart (initTokenizer input)).map fun t => t.events

/-- How many events of the given kind and token the log holds. -/
def countTok (l : List Event) (ev : EventType) (tok : Token) : Nat :=
  (l.filter fun e =>
    decide (e.event_type = ev ∧ e.token_type = tok)).length

/-! ### Claim C7: the `## aa` scenario -/

/-- Claim C7: on input `## aa` with the heading (atx) construct enabled, the
final event log after the resolver and the edit map has exactly one
HeadingAtx span spanning the whole log, one HeadingAtxSequence span covering
exactly the two `#` bytes (offsets 0 to 2), one HeadingAtxText span covering
exactly `aa` (offsets 3 to 5), and every remaining Data event lies strictly
inside the HeadingAtxText span. -/
theorem heading_aa_scenario :
    ∃ out, headingPipeline [35, 35, 32, 97, 97] = some out ∧
      countTok out EventType.enter Token.HeadingAtx = 1 ∧
      countTok out EventType.exit Token.HeadingAtx = 1 ∧
      (out.getD 0 default).token_type = Token.HeadingAtx ∧
      (out.getD (out.length - 1) default).token_type = Token.HeadingAtx ∧
      countTok out EventType.enter Token.HeadingAtxSequence = 1 ∧
      (out.filter fun e =>
          decide (e.token_type = Token.HeadingAtxSequence)).map
        (fun e => e.point.offset) = [0, 2] ∧
      (([35, 35, 32, 97, 97] : List Nat).drop 0).take (2 - 0) = [35, 35] ∧
      countTok out EventType.enter Token.HeadingAtxText = 1 ∧
      countTok out EventType.exit Token.HeadingAtxText = 1 ∧
      (out.filter fun e =>
          decide (e.token_type = Token.HeadingAtxText)).map
        (fun e => e.point.offset) = [3, 5] ∧
      (([35, 35, 32, 97, 97] : List Nat).drop 3).take (5 - 3) = [97, 97] ∧
      ∀ k, k < out.length → (out.getD k default).token_type = Token.Data →
        out.findIdx (fun e => decide (e.event_type = EventType.enter ∧
          e.token_type = Token.HeadingAtxText)) < k ∧
        k < out.findIdx (fun e => decide (e.event_type = EventType.exit ∧
          e.token_type = Token.HeadingAtxText)) :=
  ⟨(headingPipeline [35, 35, 32, 97, 97]).getD [], by decide, by decide,
    by decide, by decide, by decide, by decide, by decide, by decide,
    by decide, by decide, by decide, by decide, by decide⟩

/-! ### Claim C8: a heading with no Data produces no edits -/

/-- Scanning a run of events that are neither Data nor HeadingAtx leaves the
resolver state untouched. -/
theorem runsGo_skip_nodata :
    ∀ (h : List Event) (idx : Nat) (b : List Event),
    (∀ e ∈ h, e.token_type ≠ Token.Data ∧ e.token_type ≠ Token.HeadingAtx) →
    runsGo (h ++ b) idx true none none =
      runsGo b (idx + h.length) true none none := by
  intro h
  induction h with
  | nil => intro idx b _; simp
  | cons e rest ih =>
    intro idx b hne
    have h1 := hne e (List.mem_cons_self e rest)
    simp only [List.cons_append, runsGo, if_neg h1.2, List.append_eq]
    rw [if_neg (fun hc => h1.1 hc.2)]
    rw [ih (idx + 1) b fun x hx => hne x (List.mem_cons_of_mem e hx)]
    have harith : idx + 1 + rest.length = idx + (e :: rest).length := by
      simp
      omega
    rw [harith]

/-- Claim C8: a HeadingAtx span containing no Data events makes the resolver
record no run for it — it queues no edits and synthesizes no HeadingAtxText —
and the scan continues past it with a clean state; concretely, the input
`## ` yields a heading span holding only the opening-sequence span (and the
whitespace span), with no HeadingAtxText and no Data events. -/
theorem heading_no_data_no_edits :
    (∀ (h b : List Event) (idx : Nat) (p1 p2 : Point),
      (∀ e ∈ h,
        e.token_type ≠ Token.Data ∧ e.token_type ≠ Token.HeadingAtx) →
      runsGo (⟨EventType.enter, Token.HeadingAtx, p1, none⟩ ::
          (h ++ ⟨EventType.exit, Token.HeadingAtx, p2, none⟩ :: b)) idx
        false none none =
        runsGo b (idx + h.length + 2) false none none) ∧
    (∃ out, headingPipeline [35, 35, 32] = some out ∧
      countTok out EventType.enter Token.HeadingAtx = 1 ∧
      countTok out EventType.enter Token.HeadingAtxSequence = 1 ∧
      countTok out EventType.enter Token.HeadingAtxText = 0 ∧
      countTok out EventType.exit Token.HeadingAtxText = 0 ∧
      countTok out EventType.enter Token.Data = 0 ∧
      countTok out EventType.exit Token.Data = 0) := by
  constructor
  · intro h b idx p1 p2 hne
    have hstep : runsGo (⟨EventType.enter, Token.HeadingAtx, p1, none⟩ ::
        (h ++ ⟨EventType.exit, Token.HeadingAtx, p2, none⟩ :: b)) idx
        false none none =
        runsGo (h ++ ⟨EventType.exit, Token.HeadingAtx, p2, none⟩ :: b)
          (idx + 1) true none none := by
      simp [runsGo]
    rw [hstep, runsGo_skip_nodata h (idx + 1) _ hne]
    have hexit : runsGo (⟨EventType.exit, Token.HeadingAtx, p2, none⟩ :: b)
        (idx + 1 + h.length) true none none =
        runsGo b (idx + 1 + h.length + 1) false none none := by
      simp [runsGo]
    rw [hexit]
    have harith : idx + 1 + h.length + 1 = idx + h.length + 2 := by omega
    rw [harith]
  · exact ⟨(headingPipeline [35, 35, 32]).getD [], by decide, by decide,
      by decide, by decide, by decide, by decide, by decide⟩

/-- Witness for C8 at a concrete heading whose body is one whitespace span. -/
theorem heading_no_data_no_edits_witness :
    (runsGo [⟨EventType.enter, Token.HeadingAtx, ⟨1, 1, 0⟩, none⟩,
        ⟨EventType.enter, Token.SpaceOrTab, ⟨1, 3, 2⟩, none⟩,
        ⟨EventType.exit, Token.SpaceOrTab, ⟨1, 4, 3⟩, none⟩,
        ⟨EventType.exit, Token.HeadingAtx, ⟨1, 4, 3⟩, none⟩] 0
        false none none =
      runsGo [] (0 + 2 + 2) false none none) ∧
    (∃ out, headingPipeline [35, 35, 32] = some out ∧
      countTok out EventType.enter Token.HeadingAtx = 1 ∧
      countTok out EventType.enter Token.HeadingAtxSequence = 1 ∧
      countTok out EventType.enter Token.HeadingAtxText = 0 ∧
      countTok out EventType.exit Token.HeadingAtxText = 0 ∧
      countTok out EventType.enter Token.Data = 0 ∧
      countTok out EventType.exit Token.Data = 0) :=
  ⟨heading_no_data_no_edits.1
      [⟨EventType.enter, Token.SpaceOrTab, ⟨1, 3, 2⟩, none⟩,
       ⟨EventType.exit, Token.SpaceOrTab, ⟨1, 4, 3⟩, none⟩] [] 0
      ⟨1, 1, 0⟩ ⟨1, 4, 3⟩ (by decide),
    heading_no_data_no_edits.2⟩

/-! ### Claim C9: a two-line title is one linked run -/

/-- Claim C9: on the two-line quoted title `"a` newline `b"`, the title
construct emits two Data spans with the string content type; the first is
entered with no backward link, the second — entered after the end of line
set the connect flag — is linked backward (through the LineEnding event,
which itself links back to the first span), and the `next` chain runs
`4 → 6 → 8`, so the linked run covers exactly the bytes `a`, newline, `b`. -/
theorem title_two_line_linked :
    ∃ out, titlePipeline [34, 97, 10, 98, 34] = some out ∧
      countTok out EventType.enter Token.Data = 2 ∧
      (∀ k, k < out.length →
        (out.getD k default).event_type = EventType.enter →
        (out.getD k default).token_type = Token.Data →
        ((out.getD k default).link.map fun l => l.content_type) =
          some (some ContentType.string)) ∧
      (out.getD 4 default).event_type = EventType.enter ∧
      (out.getD 4 default).token_type = Token.Data ∧
      (out.getD 4 default).link =
        some ⟨none, some 6, some ContentType.string⟩ ∧
      (out.getD 6 default).token_type = Token.LineEnding ∧
      (out.getD 6 default).link =
        some ⟨some 4, some 8, some ContentType.string⟩ ∧
      (out.getD 8 default).event_type = EventType.enter ∧
      (out.getD 8 default).token_type = Token.Data ∧
      (out.getD 8 default).link =
        some ⟨some 6, none, some ContentType.string⟩ ∧
      (([34, 97, 10, 98, 34] : List Nat).drop
          (out.getD 4 default).point.offset).take
        ((out.getD 9 default).point.offset -
          (out.getD 4 default).point.offset) = [97, 10, 98] :=
  ⟨(titlePipeline [34, 97, 10, 98, 34]).getD [], by decide, by decide,
    by decide, by decide, by decide, by decide, by decide, by decide,
    by decide, by decide, by decide, by decide⟩

/-! ### Claim C10: the flow dispatcher never reaches its unreachable arms -/

/-- Modelled from the spec: a construct attempted by the flow dispatcher is
abstracted as a function from the engine state to an optional engine state —
`some` models the attempt ending in `State::Ok` (the construct's events and
consumed input kept), `none` models `State::Nok` (the attempt's rollback
restores the pre-attempt state, so the dispatcher continues from the very
state it passed in). The nine fields are the nine constructs the flow
dispatcher tries, in its order. -/
structure FlowConstructs where
  blankLine : Tokenizer → Option Tokenizer
  codeIndented : Tokenizer → Option Tokenizer
  codeFenced : Tokenizer → Option Tokenizer
  htmlFlow : Tokenizer → Option Tokenizer
  headingAtxC : Tokenizer → Option Tokenizer
  headingSetext : Tokenizer → Option Tokenizer
  thematicBreak : Tokenizer → Option Tokenizer
  definitionC : Tokenizer → Option Tokenizer
  paragraph : Tokenizer → Option Tokenizer

/-- The named states of the flow dispatcher (`flow.rs`). -/
inductive FState where
  | fStart
  | fBefore
  | fBeforeCodeFenced
  | fBeforeHtml
  | fBeforeHeadingAtx
  | fBeforeHeadingSetext
  | fBeforeThematicBreak
  | fBeforeDefinition
  | fBeforeParagraph
  | fAfter
  | fBlankLineAfter
deriving DecidableEq, Repr

/-- One step of the flow dispatcher. -/
inductive FOut where
  | cont : FState → Tokenizer → FOut
  | ok : Tokenizer → FOut
  | nok : FOut
  | panic : FOut
deriving DecidableEq, Repr

/-- A finished run of the flow dispatcher. `panic` models the
`unreachable!("expected eol/eof")` arms of `after` and `blank_line_after`. -/
inductive FRes where
  | ok : Tokenizer → FRes
  | nok : FRes
  | panic : FRes
  | fuelOut : FRes
deriving DecidableEq, Repr

/-- One step of the flow dispatcher, faithful to the state functions of
`flow.rs` (`start`, `before`, `before_code_fenced`, `before_html`,
`before_heading_atx`, `before_heading_setext`, `before_thematic_break`,
`before_definition`, `before_paragraph`, `after`, `blank_line_after`): each
attempt goes to `after` on Ok and to the next construct on Nok (paragraph,
last in the chain, fails to Nok); `after` and `blank_line_after` emit the
line-ending span and loop to `start` on a newline, end at end of input, and
hit `unreachable!` otherwise. -/
def flowStep (C : FlowConstructs) : FState → Tokenizer → FOut
  | FState.fStart, t =>
    if t.current = none then FOut.ok t
    else
      match C.blankLine t with
      | some t2 => FOut.cont FState.fBlankLineAfter t2
      | none => FOut.cont FState.fBefore t
  | FState.fBefore, t =>
    match C.codeIndented t with
    | some t2 => FOut.cont FState.fAfter t2
    | none => FOut.cont FState.fBeforeCodeFenced t
  | FState.fBeforeCodeFenced, t =>
    match C.codeFenced t with
    | some t2 => FOut.cont FState.fAfter t2
    | none => FOut.cont FState.fBeforeHtml t
  | FState.fBeforeHtml, t =>
    match C.htmlFlow t with
    | some t2 => FOut.cont FState.fAfter t2
    | none => FOut.cont FState.fBeforeHeadingAtx t
  | FState.fBeforeHeadingAtx, t =>
    match C.headingAtxC t with
    | some t2 => FOut.cont FState.fAfter t2
    | none => FOut.cont FState.fBeforeHeadingSetext t
  | FState.fBeforeHeadingSetext, t =>
    match C.headingSetext t with
    | some t2 => FOut.cont FState.fAfter t2
    | none => FOut.cont FState.fBeforeThematicBreak t
  | FState.fBeforeThematicBreak, t =>
    match C.thematicBreak t with
    | some t2 => FOut.cont FState.fAfter t2
    | none => FOut.cont FState.fBeforeDefinition t
  | FState.fBeforeDefinition, t =>
    match C.definitionC t with
    | some t2 => FOut.cont FState.fAfter t2
    | none => FOut.cont FState.fBeforeParagraph t
  | FState.fBeforeParagraph, t =>
    match C.paragraph t with
    | some t2 => FOut.cont FState.fAfter t2
    | none => FOut.nok
  | FState.fAfter, t =>
    if t.current = none then FOut.ok t
    else if t.current = some 10 then
      FOut.cont FState.fStart
        ((t.enter Token.LineEnding).consume.exitTok Token.LineEnding)
    else FOut.panic
  | FState.fBlankLineAfter, t =>
    if t.current = none then FOut.ok t
    else if t.current = some 10 then
      FOut.cont FState.fStart
        { (t.enter Token.BlankLineEnding).consume.exitTok
            Token.BlankLineEnding with interrupt := false }
    else FOut.panic

/-- Drive the flow dispatcher with fuel. -/
def flowRun (C : FlowConstructs) : Nat → FState → Tokenizer → FRes
  | 0, _, _ => FRes.fuelOut
  | fuel + 1, s, t =>
    match flowStep C s t with
    | FOut.cont s2 t2 => flowRun C fuel s2 t2
    | FOut.ok t2 => FRes.ok t2
    | FOut.nok => FRes.nok
    | FOut.panic => FRes.panic

/-- A construct returns Ok only when the current input unit is end of input
or a line feed. -/
def okAtEol (f : Tokenizer → Option Tokenizer) : Prop :=
  ∀ t t2 : Tokenizer, f t = some t2 →
    t2.current = none ∨ t2.current = some 10

/-- Every construct in the flow chain returns Ok only at eol/eof. -/
def flowChainOk (C : FlowConstructs) : Prop :=
  okAtEol C.blankLine ∧ okAtEol C.codeIndented ∧ okAtEol C.codeFenced ∧
    okAtEol C.htmlFlow ∧ okAtEol C.headingAtxC ∧ okAtEol C.headingSetext ∧
    okAtEol C.thematicBreak ∧ okAtEol C.definitionC ∧ okAtEol C.paragraph

/-- The flow chain in which every construct always fails (so the dispatcher
exercises only its own states). -/
def noConstructs : FlowConstructs :=
  ⟨fun _ => none, fun _ => none, fun _ => none, fun _ => none, fun _ => none,
    fun _ => none, fun _ => none, fun _ => none, fun _ => none⟩

/-- The all-failing chain satisfies the eol/eof precondition vacuously. -/
theorem noConstructs_ok : flowChainOk noConstructs := by
  unfold flowChainOk okAtEol
  refine ⟨?_, ?_, ?_, ?_, ?_, ?_, ?_, ?_, ?_⟩ <;> intro t t2 h <;>
    simp [noConstructs] at h

/-- A single heading step ends in Ok only when the current input unit is end
of input or a line feed (the None-or-newline arm of `at_break` is the only
arm returning `State::Ok`, and it emits events without consuming input). -/
theorem headingStep_ok {s : HState} {t t2 : Tokenizer}
    (h : headingStep s t = Sum.inr (some t2)) :
    t2.current = none ∨ t2.current = some 10 := by
  cases s with
  | before =>
    simp only [headingStep] at h
    split_ifs at h <;> simp at h
  | seqOpen =>
    simp only [headingStep] at h
    split_ifs at h <;> first
      | simp at h
      | (split at h <;> simp at h)
  | atBreak =>
    simp only [headingStep] at h
    split_ifs at h with h1 h2
    · simp only [Sum.inr.injEq, Option.some.injEq] at h
      subst h
      exact h1
    · split at h <;> simp at h
  | seqFurther =>
    simp only [headingStep] at h
    split_ifs at h <;> simp at h
  | dataS =>
    simp only [headingStep] at h
    split_ifs at h <;> simp at h

/-- A completed run of the heading machine ends at eol/eof. -/
theorem headingRun_ok :
    ∀ (fuel : Nat) (s : HState) (t t2 : Tokenizer),
      headingRun fuel s t = some t2 →
      t2.current = none ∨ t2.current = some 10 := by
  intro fuel
  induction fuel with
  | zero =>
    intro s t t2 h
    simp [headingRun] at h
  | succ n ih =>
    intro s t t2 h
    cases hs : headingStep s t with
    | inl p =>
      obtain ⟨s1, t1⟩ := p
      simp only [headingRun, hs] at h
      exact ih s1 t1 t2 h
    | inr r =>
      simp only [headingRun, hs] at h
      cases r with
      | none => simp at h
      | some t3 =>
        simp only [Option.some.injEq] at h
        subst h
        exact headingStep_ok hs

/-- The heading (atx) construct as attempted by the flow dispatcher returns
Ok only at eol/eof. -/
theorem headingFromStart_ok {t t2 : Tokenizer}
    (h : headingFromStart t = some t2) :
    t2.current = none ∨ t2.current = some 10 := by
  simp only [headingFromStart] at h
  split_ifs at h with h1 h2 <;> split at h <;>
    first
      | exact headingRun_ok _ _ _ _ h
      | simp at h

/-- Under the eol/eof precondition on every construct of the chain, the flow
dispatcher never panics: `after` and `blank_line_after` are entered only with
the invariant that the current input unit is eol/eof. -/
theorem flowRun_no_panic (C : FlowConstructs) (hC : flowChainOk C) :
    ∀ (fuel : Nat) (s : FState) (t : Tokenizer),
      ((s = FState.fAfter ∨ s = FState.fBlankLineAfter) →
        t.current = none ∨ t.current = some 10) →
      flowRun C fuel s t ≠ FRes.panic := by
  obtain ⟨hBL, hCI, hCF, hHT, hHA, hHS, hTB, hDF, hPG⟩ := hC
  intro fuel
  induction fuel with
  | zero =>
    intro s t _
    simp [flowRun]
  | succ n ih =>
    intro s t hinv
    cases s with
    | fStart =>
      by_cases hnone : t.current = none
      · simp [flowRun, flowStep, hnone]
      · cases hbl : C.blankLine t with
        | some t2 =>
          simp only [flowRun, flowStep, hbl]
          rw [if_neg hnone]
          exact ih FState.fBlankLineAfter t2 fun _ => hBL t t2 hbl
        | none =>
          simp only [flowRun, flowStep, hbl]
          rw [if_neg hnone]
          exact ih FState.fBefore t fun hc => by
            rcases hc with hc | hc <;> simp at hc
    | fBefore =>
      cases hat : C.codeIndented t with
      | some t2 =>
        simp only [flowRun, flowStep, hat]
        exact ih FState.fAfter t2 fun _ => hCI t t2 hat
      | none =>
        simp only [flowRun, flowStep, hat]
        exact ih FState.fBeforeCodeFenced t fun hc => by
          rcases hc with hc | hc <;> simp at hc
    | fBeforeCodeFenced =>
      cases hat : C.codeFenced t with
      | some t2 =>
        simp only [flowRun, flowStep, hat]
        exact ih FState.fAfter t2 fun _ => hCF t t2 hat
      | none =>
        simp only [flowRun, flowStep, hat]
        exact ih FState.fBeforeHtml t fun hc => by
          rcases hc with hc | hc <;> simp at hc
    | fBeforeHtml =>
      cases hat : C.htmlFlow t with
      | some t2 =>
        simp only [flowRun, flowStep, hat]
        exact ih FState.fAfter t2 fun _ => hHT t t2 hat
      | none =>
        simp only [flowRun, flowStep, hat]
        exact ih FState.fBeforeHeadingAtx t fun hc => by
          rcases hc with hc | hc <;> simp at hc
    | fBeforeHeadingAtx =>
      cases hat : C.headingAtxC t with
      | some t2 =>
        simp only [flowRun, flowStep, hat]
        exact ih FState.fAfter t2 fun _ => hHA t t2 hat
      | none =>
        simp only [flowRun, flowStep, hat]
        exact ih FState.fBeforeHeadingSetext t fun hc => by
          rcases hc with hc | hc <;> simp at hc
    | fBeforeHeadingSetext =>
      cases hat : C.headingSetext t with
      | some t2 =>
        simp only [flowRun, flowStep, hat]
        exact ih FState.fAfter t2 fun _ => hHS t t2 hat
      | none =>
        simp only [flowRun, flowStep, hat]
        exact ih FState.fBeforeThematicBreak t fun hc => by
          rcases hc with hc | hc <;> simp at hc
    | fBeforeThematicBreak =>
      cases hat : C.thematicBreak t with
      | some t2 =>
        simp only [flowRun, flowStep, hat]
        exact ih FState.fAfter t2 fun _ => hTB t t2 hat
      | none =>
        simp only [flowRun, flowStep, hat]
        exact ih FState.fBeforeDefinition t fun hc => by
          rcases hc with hc | hc <;> simp at hc
    | fBeforeDefinition =>
      cases hat : C.definitionC t with
      | some t2 =>
        simp only [flowRun, flowStep, hat]
        exact ih FState.fAfter t2 fun _ => hDF t t2 hat
      | none =>
        simp only [flowRun, flowStep, hat]
        exact ih FState.fBeforeParagraph t fun hc => by
          rcases hc with hc | hc <;> simp at hc
    | fBeforeParagraph =>
      cases hat : C.paragraph t with
      | some t2 =>
        simp only [flowRun, flowStep, hat]
        exact ih FState.fAfter t2 fun _ => hPG t t2 hat
      | none =>
        simp [flowRun, flowStep, hat]
    | fAfter =>
      by_cases hnone : t.current = none
      · simp [flowRun, flowStep, hnone]
      · have h10 : t.current = some 10 :=
          (hinv (Or.inl rfl)).resolve_left hnone
        simp only [flowRun, flowStep]
        rw [if_neg hnone, if_pos h10]
        exact ih FState.fStart _ fun hc => by
          rcases hc with hc | hc <;> simp at hc
    | fBlankLineAfter =>
      by_cases hnone : t.current = none
      · simp [flowRun, flowStep, hnone]
      · have h10 : t.current = some 10 :=
          (hinv (Or.inr rfl)).resolve_left hnone
        simp only [flowRun, flowStep]
        rw [if_neg hnone, if_pos h10]
        exact ih FState.fStart _ fun hc => by
          rcases hc with hc | hc <;> simp at hc

/-- Claim C10: the heading (atx) construct returns Ok only when the current
input unit is end of input or a line feed, and under that precondition on
every construct of the flow chain the dispatcher never panics — the
`unreachable!("expected eol/eof")` arms of `flow::after` and
`flow::blank_line_after` never execute, from any starting state of a parse
(the dispatcher starts at `start`, which is not one of those two states). -/
theorem flow_never_panics :
    okAtEol headingFromStart ∧
    ∀ (C : FlowConstructs), flowChainOk C →
      ∀ (fuel : Nat) (t : Tokenizer),
        flowRun C fuel FState.fStart t ≠ FRes.panic :=
  ⟨fun _ _ h => headingFromStart_ok h,
    fun C hC fuel t =>
      flowRun_no_panic C hC fuel FState.fStart t fun hc => by
        rcases hc with hc | hc <;> simp at hc⟩

/-- Witness for C10: the heading construct on `## aa` ends at end of input,
and the all-failing chain never panics on the input `#`. -/
theorem flow_never_panics_witness :
    (((headingFromStart (initTokenizer [35, 35, 32, 97, 97])).getD
        (initTokenizer [])).current = none ∨
      ((headingFromStart (initTokenizer [35, 35, 32, 97, 97])).getD
        (initTokenizer [])).current = some 10) ∧
    flowRun noConstructs 3 FState.fStart (initTokenizer [35]) ≠ FRes.panic :=
  ⟨flow_never_panics.1 (initTokenizer [35, 35, 32, 97, 97])
      ((headingFromStart (initTokenizer [35, 35, 32, 97, 97])).getD
        (initTokenizer [])) (by decide),
    flow_never_panics.2 noConstructs noConstructs_ok 3 (initTokenizer [35])⟩

/-- Witness for C6. -/
theorem consumed_map_rejects_all_witness :
    (EditMap.mk true []).consume [default] = none ∧
      (EditMap.mk true []).add 0 1 [] = none ∧
      (EditMap.mk true []).add_before 0 1 [] = none :=
  consumed_map_rejects_all ⟨true, []⟩ rfl [default] 0 1 []

end MD
